import Mathlib

/-!
Verification of the resource-preparation core of
`ldm_patched/modules/sampler_helpers.py` (stable-diffusion-webui-reForge).

The Python module is shallowly embedded below.  Python objects are modelled
as Lean structures whose identity is an explicit numeric id (Python `set`
deduplication over objects uses object identity; it is modelled as
first-occurrence deduplication by id, which determinizes the unordered set
iteration of CPython).  Fallible attribute accesses are modelled with
`Option`/`Except`.  External collaborators that are not part of the source
file (the hooks module, `patcher_extension`, the control-net `get_models`
capability) are modelled from the specification's description of their
contracts; each such definition carries a doc comment saying so.
-/

set_option maxHeartbeats 1000000

namespace SamplerHelpers

/-- A value stored under a conditioning key: the code accepts either a single
object or a list of objects (`get_models_from_cond` flattens both). -/
inductive CVal (α : Type) where
  | single (a : α)
  | many (l : List α)

/-- A plain auxiliary model object (the things that end up in the `models`
list handed to the device manager).  Identity is `mid`; `hasCleanup` records
whether the object exposes the optional `cleanup()` capability. -/
structure MRes where
  mid : Nat
  hasCleanup : Bool
deriving DecidableEq

/-- Hook type tags (`EnumHookType` from the external hooks module). -/
inductive HookType where
  | TransformerOptions
  | AdditionalModels
  | Weight
deriving DecidableEq

/-- A behavioral-override hook.  `models` is the payload of
`AdditionalModels`-type hooks; `payload` is the id of the nested-dict payload
of `TransformerOptions`-type hooks (a reference into the `Heap` used by the
hook-registration model further below). -/
structure Hook where
  hid : Nat
  htype : HookType
  models : List MRes
  payload : Option Nat
deriving DecidableEq

/-- A group of hooks (external `HookGroup`). -/
structure HookGroup where
  hooks : List Hook
deriving DecidableEq

/-- Modelled from the spec: `HookGroup.add` of the external hooks module has
set-union semantics — "combining two groups yields the union of their hooks;
hooks are deduplicated by identity/equality, not silently overwritten".  A
hook already present is not appended again. -/
def HookGroup.add (g : HookGroup) (h : Hook) : HookGroup :=
  if h ∈ g.hooks then g else ⟨g.hooks ++ [h]⟩

/-- Adds every hook of a list into a group, in order, via `HookGroup.add`. -/
def HookGroup.addAll (g : HookGroup) (l : List Hook) : HookGroup :=
  l.foldl HookGroup.add g

/-- Modelled from the spec: `HookGroup.combine_all_hooks` of the external
hooks module combines a list of groups into their deduplicated union,
"skipping empty" — it returns `none` when the list is empty. -/
def combine_all_hooks (l : List HookGroup) : Option HookGroup :=
  if l.isEmpty then none
  else some (l.foldl (fun acc g => acc.addAll g.hooks) ⟨[]⟩)

/-- Modelled from the spec: `HookGroup.get_type` of the external hooks module
returns the group's hooks of one type, preserving the group's order. -/
def HookGroup.get_type (g : HookGroup) (t : HookType) : List Hook :=
  g.hooks.filter (fun h => h.htype == t)

/-- A control-chain resource (`ControlBase`).  `getModels?` is modelled from
the spec: the external `get_models()` capability "knows its full dependency
set" and returns every model reachable from the chain rooted at this node;
`none` models an object lacking the capability.  `imr?` models the optional
`inference_memory_requirements(dtype)` capability.  `previous` holds the id
of the previous chain node (`previous_controlnet`), resolved through a
`Store`, so that chains with shared suffixes — and even cyclic chains — are
representable. -/
structure Resource where
  rid : Nat
  getModels? : Option (List MRes)
  imr? : Option (Nat → Nat)
  hasCleanup : Bool
  extraHooks : Option HookGroup
  previous : Option Nat

/-- The object store resolving control-chain `previous` references. -/
abbrev Store := List (Nat × Resource)

/-- Looks a resource up in the store by id. -/
def storeFind (s : Store) (i : Nat) : Option Resource :=
  (s.find? (fun p => p.1 == i)).map (·.2)

/-- One conditioning entry (an element of one branch of the conditioning
set): optional references to a control chain head, a gligen pair list, an
additional-models list and a hook group, plus the keyed payload consumed by
`extra_conds_shapes` (opaque here, represented by a number). -/
structure CondEntry where
  control : Option (CVal Resource)
  gligen : Option (CVal (Nat × MRes))
  additional_models : Option (CVal MRes)
  hooks : Option HookGroup
  payload : Nat

/-- A conditioning set: branch key to ordered entry list (Python dicts
iterate in insertion order). -/
abbrev Conds := List (String × List CondEntry)

/-- Embeds `get_models_from_cond`: collects the values stored under one key
across a branch's entries, flattening single values and lists.  The Python
function selects the key by name; here the key is the field projection. -/
def get_models_from_cond (cond : List CondEntry) (proj : CondEntry → Option (CVal α)) :
    List α :=
  cond.foldl
    (fun models c =>
      match proj c with
      | none => models
      | some (.single a) => models ++ [a]
      | some (.many l) => models ++ l)
    []

/-- First-occurrence deduplication by key (tail recursion over a seen list). -/
def dedupByGo [DecidableEq κ] (f : α → κ) (seen : List κ) : List α → List α
  | [] => []
  | x :: xs => if f x ∈ seen then dedupByGo f seen xs else x :: dedupByGo f (f x :: seen) xs

/-- Python `set(objects)` dedups by object identity; modelled as
first-occurrence deduplication by id. -/
def dedupBy [DecidableEq κ] (f : α → κ) (l : List α) : List α :=
  dedupByGo f [] l

/-- The control-net loop of `get_additional_models`: for each distinct
control net, `control_models += m.get_models()` and
`inference_memory += m.inference_memory_requirements(dtype)`.  A missing
capability aborts the whole collection (models the `AttributeError` a Python
object without the attribute would raise). -/
def collect_control (dtype : Nat) : List Resource → Except Unit (List MRes × Nat)
  | [] => .ok ([], 0)
  | m :: rest =>
    match m.getModels?, m.imr? with
    | some ms, some f =>
      match collect_control dtype rest with
      | .error e => .error e
      | .ok (cms, im) => .ok (ms ++ cms, f dtype + im)
    | _, _ => .error ()

/-- Embeds `get_additional_models`: gathers control nets, gligen pairs and
additional models across all branches, dedups the control nets by identity,
expands each distinct control net through its `get_models()` capability and
sums the per-net inference-memory hints; the result list is the plain
concatenation `control_models + gligen + add_models` (gligen contributing
only the second half of each pair). -/
def get_additional_models (conds : Conds) (dtype : Nat) :
    Except Unit (List MRes × Nat) :=
  let cnets := conds.foldl (fun acc kc => acc ++ get_models_from_cond kc.2 (·.control)) []
  let gligen := conds.foldl (fun acc kc => acc ++ get_models_from_cond kc.2 (·.gligen)) []
  let add_models :=
    conds.foldl (fun acc kc => acc ++ get_models_from_cond kc.2 (·.additional_models)) []
  let control_nets := dedupBy (·.rid) cnets
  match collect_control dtype control_nets with
  | .error e => .error e
  | .ok (control_models, inference_memory) =>
    .ok (control_models ++ gligen.map (·.2) ++ add_models, inference_memory)

/-- The per-request options structure, as far as this module reads it: an
optional `registered_hooks` entry (absent key modelled as `none`). -/
structure ModelOptions where
  registered_hooks : Option HookGroup

/-- Embeds `get_additional_models_from_model_options`: the concatenation of
the model payloads of the registered `AdditionalModels`-type hooks; empty
when the options are `None` or carry no `registered_hooks` key. -/
def get_additional_models_from_model_options (model_options : Option ModelOptions) :
    List MRes :=
  match model_options with
  | some mo =>
    match mo.registered_hooks with
    | some registered =>
      (registered.get_type .AdditionalModels).foldl (fun models h => models ++ h.models) []
    | none => []
  | none => []

/-- Embeds `cleanup_additional_models`, instrumented: instead of performing
the side effect it returns the log of ids whose `cleanup()` capability was
invoked, in call order; objects without the capability are skipped. -/
def cleanup_additional_models (models : List α) (mid : α → Nat) (hasCleanup : α → Bool) :
    List Nat :=
  models.foldl (fun log m => if hasCleanup m then log ++ [mid m] else log) []

/-- Embeds `cleanup_models`: cleans the auxiliary model list, then cleans the
identity-deduplicated set of control resources referenced anywhere in the
conditioning set.  Returns the concatenated invocation log. -/
def cleanup_models (conds : Conds) (models : List MRes) : List Nat :=
  let log1 := cleanup_additional_models models MRes.mid MRes.hasCleanup
  let control_cleanup :=
    conds.foldl (fun acc kc => acc ++ get_models_from_cond kc.2 (·.control)) []
  let log2 :=
    cleanup_additional_models (dedupBy Resource.rid control_cleanup)
      Resource.rid Resource.hasCleanup
  log1 ++ log2

/-- A tensor shape (list of dimensions). -/
abbrev Shape := List Nat

/-- The per-bucket shape maps built by `estimate_memory`; Python dicts are
modelled as insertion-ordered association lists. -/
abbrev CondShapes := List (String × List Shape)

/-- `cond_shapes[k].append(v)` on a `defaultdict(list)`: appends `v` to the
bucket `k`, creating the bucket at the end of the dict if absent. -/
def csAppend (m : CondShapes) (k : String) (v : Shape) : CondShapes :=
  match m with
  | [] => [(k, [v])]
  | (k', l) :: rest =>
    if k' = k then (k, l ++ [v]) :: rest else (k', l) :: csAppend rest k v

/-- The `cond_shapes_min` update: a new bucket gets `[v]`; an existing bucket
is replaced by `[v]` only when `math.prod(v)` strictly exceeds the volume of
the held shape (so ties keep the first-seen maximal shape). -/
def csMinUpd (m : CondShapes) (k : String) (v : Shape) : CondShapes :=
  match m with
  | [] => [(k, [v])]
  | (k', l) :: rest =>
    if k' = k then
      if v.prod > (l.headD []).prod then (k, [v]) :: rest else (k', l) :: rest
    else (k', l) :: csMinUpd rest k v

/-- The primary resource (`ModelPatcher`) with the capabilities this module
consumes: `model_dtype()`, `get_nested_additional_models()`, and the inner
model's `extra_conds_shapes(**cond)` (keyed by the entry's opaque payload)
and `memory_required(shape, cond_shapes)`. -/
structure MPatcher where
  pid : Nat
  model_dtype : Nat
  get_nested_additional_models : List MRes
  extra_conds_shapes : Nat → List (String × Shape)
  memory_required : Shape → CondShapes → Nat

/-- Embeds `estimate_memory`: accumulates, per bucket name, the full shape
list and the running maximal-volume shape over every entry of every branch,
then queries `memory_required` once with the batch dimension doubled and the
full lists, and once with the original batch dimension and the maximal
shapes. -/
def estimate_memory (model : MPatcher) (noise_shape : Shape) (conds : Conds) :
    Nat × Nat :=
  let maps :=
    conds.foldl
      (fun acc kc =>
        kc.2.foldl
          (fun acc c =>
            (model.extra_conds_shapes c.payload).foldl
              (fun acc kv => (csAppend acc.1 kv.1 kv.2, csMinUpd acc.2 kv.1 kv.2))
              acc)
          acc)
      ([], [])
  let memory_required :=
    model.memory_required (noise_shape.headD 0 * 2 :: noise_shape.tail) maps.1
  let minimum_memory_required :=
    model.memory_required (noise_shape.headD 0 :: noise_shape.tail) maps.2
  (memory_required, minimum_memory_required)

/-- One call to the external device manager `load_models_gpu`, recorded by
object ids: the resource list and the two memory bounds. -/
structure LoadCall where
  res : List Nat
  memory_required : Nat
  minimum_memory_required : Nat
deriving DecidableEq

/-- Embeds `_prepare_sampling` (the inner implementation that the
`prepare_sampling` interceptor chain wraps): collects the additional models
and the inference-memory hint, extends them with hook-declared and nested
models, estimates memory, and issues the single `load_models_gpu` call.
Instrumented: the second component is the log of device-manager load calls
issued.  A collection failure propagates and no load call is issued. -/
def prepare_sampling_core (model : MPatcher) (noise_shape : Shape) (conds : Conds)
    (model_options : Option ModelOptions) :
    Except Unit (Nat × Conds × List MRes) × List LoadCall :=
  match get_additional_models conds model.model_dtype with
  | .error e => (.error e, [])
  | .ok (models0, inference_memory) =>
    let models := models0 ++ get_additional_models_from_model_options model_options
      ++ model.get_nested_additional_models
    let est := estimate_memory model noise_shape conds
    let call : LoadCall :=
      ⟨model.pid :: models.map MRes.mid, est.1 + inference_memory,
        est.2 + inference_memory⟩
    (.ok (model.pid, conds, models), [call])

/-- Embeds `get_extra_hooks_from_cnet`: walks a control chain toward its
root, appending each node's `extra_hooks` group (when present) to `_list`.
The Python recursion has no cycle protection; termination is therefore made
explicit with a fuel argument — `none` means the recursion did not reach a
chain end within `fuel` steps (or followed a dangling reference).
Instrumented: also returns the trace of visited node ids, one entry per
extra-hook lookup. -/
def get_extra_hooks_from_cnet (s : Store) :
    Nat → Resource → List HookGroup → List Nat → Option (List HookGroup × List Nat)
  | 0, _, _, _ => none
  | fuel + 1, cnet, lst, trace =>
    let lst := match cnet.extraHooks with
      | some eh => lst ++ [eh]
      | none => lst
    let trace := trace ++ [cnet.rid]
    match cnet.previous with
    | none => some (lst, trace)
    | some p =>
      match storeFind s p with
      | none => none
      | some prev => get_extra_hooks_from_cnet s fuel prev lst trace

/-- The hooks one entry contributes directly (its `hooks` field). -/
def entryHooksOf (c : CondEntry) : List Hook :=
  match c.hooks with
  | some g => g.hooks
  | none => []

/-- The entry loop of `get_hooks_from_cond` adding one entry's hooks into
the accumulating group. -/
def entryHookStep (g : HookGroup) (c : CondEntry) : HookGroup :=
  match c.hooks with
  | some hg => g.addAll hg.hooks
  | none => g

/-- The entry loop of `get_hooks_from_cond` collecting one entry's control
reference(s). -/
def cnetStep (l : List Resource) (c : CondEntry) : List Resource :=
  match c.control with
  | none => l
  | some (.single r) => l ++ [r]
  | some (.many rs) => l ++ rs

/-- One step of the chain-walk loop over the deduplicated control nets (a
failed walk poisons the rest of the loop). -/
def walkStep (s : Store) (fuel : Nat) (acc : Option (List HookGroup × List Nat))
    (base_cnet : Resource) : Option (List HookGroup × List Nat) :=
  match acc with
  | none => none
  | some (hooks_list, trace) =>
    get_extra_hooks_from_cnet s fuel base_cnet hooks_list trace

/-- Embeds `get_hooks_from_cond` for one branch: adds every entry's hooks
into `full_hooks`, dedups the branch's control nets by identity, walks each
distinct net's chain collecting extra-hook groups, combines those groups and
adds the result into `full_hooks`.  Instrumented with the chain-walk trace. -/
def get_hooks_from_cond (s : Store) (fuel : Nat) (cond : List CondEntry)
    (full_hooks : HookGroup) : Option (HookGroup × List Nat) :=
  let full_hooks := cond.foldl entryHookStep full_hooks
  let cnets := cond.foldl cnetStep []
  let walked := (dedupBy Resource.rid cnets).foldl (walkStep s fuel) (some ([], []))
  match walked with
  | none => none
  | some (hooks_list, trace) =>
    let full_hooks :=
      match combine_all_hooks hooks_list with
      | some extra => full_hooks.addAll extra.hooks
      | none => full_hooks
    some (full_hooks, trace)

/-- One step of the per-branch loop of `prepare_model_patcher` (the shared
group is threaded through; traces are concatenated). -/
def branchStep (s : Store) (fuel : Nat) (acc : Option (HookGroup × List Nat))
    (kc : String × List CondEntry) : Option (HookGroup × List Nat) :=
  match acc with
  | none => none
  | some (g, trace) =>
    match get_hooks_from_cond s fuel kc.2 g with
    | none => none
    | some (g', trace') => some (g', trace ++ trace')

/-- The hook-collection loop of `prepare_model_patcher` (lines 158-160 of the
source): one shared accumulating group threaded through every branch.
Instrumented with the concatenated chain-walk traces. -/
def collect_conds_hooks (s : Store) (fuel : Nat) (conds : Conds) :
    Option (HookGroup × List Nat) :=
  conds.foldl (branchStep s fuel) (some (⟨[]⟩, []))

/-! ### Nested option dictionaries with reference semantics

`prepare_model_patcher` mutates a nested-dictionary options structure in
place, and its correctness claim is about aliasing (the deep copy of the
primary resource's wrapper/callback registrations must protect the originals
from later in-place merges).  Python dictionaries are therefore modelled as
heap objects: a `Heap` maps dict ids to their entries, and a dict entry
holds either an opaque payload list (`leaf`) or a reference to another
dict. -/

/-- A value held by a nested-dict entry: an opaque payload (e.g. a list of
callables, by ids) or a reference to another dict object. -/
inductive HVal where
  | leaf (xs : List Nat)
  | ref (i : Nat)
deriving DecidableEq

/-- The entries of one dict object, in insertion order. -/
abbrev HDict := List (String × HVal)

/-- The dict heap: object id to entries. -/
abbrev Heap := List (Nat × HDict)

/-- Looks a dict object up by id. -/
def heapFind (h : Heap) (i : Nat) : Option HDict :=
  (h.find? (fun p => p.1 == i)).map (·.2)

/-- Replaces the entries of object `i` (first occurrence), or appends the
object if it is not yet allocated. -/
def heapSet (h : Heap) (i : Nat) (d : HDict) : Heap :=
  match h with
  | [] => [(i, d)]
  | (j, d') :: rest => if j = i then (i, d) :: rest else (j, d') :: heapSet rest i d

/-- Reads one key of a dict's entries. -/
def dictGet (d : HDict) (k : String) : Option HVal :=
  (d.find? (fun p => p.1 == k)).map (·.2)

/-- Sets one key of a dict's entries in place (keeping the key's position,
as Python dicts do), appending the key if absent. -/
def dictSet (d : HDict) (k : String) (v : HVal) : HDict :=
  match d with
  | [] => [(k, v)]
  | (k', v') :: rest => if k' = k then (k, v) :: rest else (k', v') :: dictSet rest k v

/-- Work items of the deep-copy recursion. -/
inductive CJob where
  | val (v : HVal)
  | entries (es : HDict)

/-- Modelled from the spec: `copy_nested_dicts` of the external
`patcher_extension` module is a deep copy — every dict reachable from the
source is re-allocated at a fresh id (`fresh` is the allocation counter) and
leaf payloads are copied by value.  Fuelled; `none` means the structure was
deeper than `fuel` or a reference dangled. -/
def copyGo : Nat → Heap → Nat → CJob → Option (Heap × Nat × (HVal ⊕ HDict))
  | 0, _, _, _ => none
  | _ + 1, h, fresh, .val (.leaf xs) => some (h, fresh, .inl (.leaf xs))
  | fuel + 1, h, fresh, .val (.ref i) =>
    match heapFind h i with
    | none => none
    | some d =>
      match copyGo fuel h fresh (.entries d) with
      | some (h', fresh', .inr d') =>
        some (heapSet h' fresh' d', fresh' + 1, .inl (.ref fresh'))
      | _ => none
  | _ + 1, h, fresh, .entries [] => some (h, fresh, .inr [])
  | fuel + 1, h, fresh, .entries ((k, v) :: rest) =>
    match copyGo fuel h fresh (.val v) with
    | some (h', fresh', .inl v') =>
      match copyGo fuel h' fresh' (.entries rest) with
      | some (h'', fresh'', .inr rest') => some (h'', fresh'', .inr ((k, v') :: rest'))
      | _ => none
    | _ => none

/-- The pure tree value of a nested-dict structure (what "deep-equal"
compares). -/
inductive DTree where
  | leaf (xs : List Nat)
  | node (es : List (String × DTree))

/-- Reads the deep (tree) value of a heap value, with fuel. -/
def readGo : Nat → Heap → CJob → Option (DTree ⊕ List (String × DTree))
  | 0, _, _ => none
  | _ + 1, _, .val (.leaf xs) => some (.inl (.leaf xs))
  | fuel + 1, h, .val (.ref i) =>
    match heapFind h i with
    | none => none
    | some d =>
      match readGo fuel h (.entries d) with
      | some (.inr es) => some (.inl (.node es))
      | _ => none
  | _ + 1, _, .entries [] => some (.inr [])
  | fuel + 1, h, .entries ((k, v) :: rest) =>
    match readGo fuel h (.val v), readGo fuel h (.entries rest) with
    | some (.inl t), some (.inr es) => some (.inr ((k, t) :: es))
    | _, _ => none

/-- Work items of the in-place merge recursion. -/
inductive MJob where
  | dicts (d1 d2 : Nat)
  | entries (d1 : Nat) (es : HDict)

/-- Modelled from the spec: `merge_nested_dicts(dict1, dict2,
copy_dict1=False)` of the external `patcher_extension` module merges `dict2`
into `dict1` in place, non-destructively toward `dict1`: an absent key takes
the incoming value (by reference), two sequences concatenate, two mappings
merge recursively, and on any other collision the existing value wins. -/
def mergeGo : Nat → Heap → MJob → Option Heap
  | 0, _, _ => none
  | fuel + 1, h, .dicts d1 d2 =>
    match heapFind h d2 with
    | none => none
    | some d2d => mergeGo fuel h (.entries d1 d2d)
  | _ + 1, h, .entries _ [] => some h
  | fuel + 1, h, .entries d1 ((k, v2) :: rest) =>
    match heapFind h d1 with
    | none => none
    | some d1d =>
      match dictGet d1d k, v2 with
      | none, _ => mergeGo fuel (heapSet h d1 (dictSet d1d k v2)) (.entries d1 rest)
      | some (.leaf l1), .leaf l2 =>
        mergeGo fuel (heapSet h d1 (dictSet d1d k (.leaf (l1 ++ l2)))) (.entries d1 rest)
      | some (.ref r1), .ref r2 =>
        match mergeGo fuel h (.dicts r1 r2) with
        | none => none
        | some h' => mergeGo fuel h' (.entries d1 rest)
      | some _, _ => mergeGo fuel h (.entries d1 rest)

/-- `merge_nested_dicts(dict1, dict2, copy_dict1=False)`, by object ids. -/
def merge_nested_dicts (fuel : Nat) (h : Heap) (d1 d2 : Nat) : Option Heap :=
  mergeGo fuel h (.dicts d1 d2)

/-- The primary resource's own wrapper and callback registrations, as dict
object ids into the heap. -/
structure MPRefs where
  wrappersId : Nat
  callbacksId : Nat

/-- Sets one key of dict object `i` in the heap. -/
def setDictKey (h : Heap) (i : Nat) (k : String) (v : HVal) : Option Heap :=
  match heapFind h i with
  | none => none
  | some d => some (heapSet h i (dictSet d k v))

/-- `d.setdefault(k, {})` on dict object `i`: returns the id of the dict
already stored under `k`, or allocates a fresh empty dict there.  Fails if
`k` holds a non-dict value. -/
def setdefault_dict (h : Heap) (fresh : Nat) (i : Nat) (k : String) :
    Option (Heap × Nat × Nat) :=
  match heapFind h i with
  | none => none
  | some d =>
    match dictGet d k with
    | some (.ref j) => some (h, fresh, j)
    | some (.leaf _) => none
    | none =>
      let h := heapSet h fresh []
      match setDictKey h i k (.ref fresh) with
      | none => none
      | some h' => some (h', fresh + 1, fresh)

/-- Modelled from the spec: a `TransformerOptions`-type hook's
`add_hook_patches` merges the hook's own payload dict into the working
`transformer_options` area (hooks without a payload contribute nothing). -/
def apply_transformer_hooks (fuel : Nat) (toId : Nat) :
    Heap → List Hook → Option Heap
  | h, [] => some h
  | h, hk :: rest =>
    match hk.payload with
    | none => apply_transformer_hooks fuel toId h rest
    | some p =>
      match mergeGo fuel h (.dicts toId p) with
      | none => none
      | some h' => apply_transformer_hooks fuel toId h' rest

/-- The final merge loop of `prepare_model_patcher`: for each of
`"wrappers"` and `"callbacks"`, merge the working `transformer_options`
entry into `to_load_options.setdefault(name, {})` in place. -/
def merge_to_load_options (fuel : Nat) (toId tlId : Nat) :
    Heap → Nat → List String → Option (Heap × Nat)
  | h, fresh, [] => some (h, fresh)
  | h, fresh, wc :: rest =>
    match setdefault_dict h fresh tlId wc with
    | none => none
    | some (h, fresh, dId) =>
      match heapFind h toId with
      | none => none
      | some tod =>
        match dictGet tod wc with
        | some (.ref srcId) =>
          match mergeGo fuel h (.dicts dId srcId) with
          | none => none
          | some h' => merge_to_load_options fuel toId tlId h' fresh rest
        | _ => none

/-- The `registered_hooks` attachment step of `prepare_model_patcher`: when
any hooks were registered, record their ids under the options'
`registered_hooks` key. -/
def register_hooks_step (h : Heap) (optsId : Nat) (registered : List Hook) :
    Option Heap :=
  if registered.isEmpty then some h
  else setDictKey h optsId "registered_hooks" (.leaf (registered.map Hook.hid))

/-- Embeds `prepare_model_patcher`: collects the conditioning set's hooks,
deep-copies the primary resource's wrapper and callback registrations into
the options' `transformer_options` area, dispatches the collected hooks
(`TransformerOptions` hooks merge their payloads into the working area;
`AdditionalModels` and weight hooks only register — modelled from the spec,
their registration capabilities are external), attaches the registered-hook
ids, and merges the working wrappers/callbacks into `to_load_options`.
Returns the final heap, allocation counter, the `to_load_options` id and the
collected hook group. -/
def prepare_model_patcher (s : Store) (fuel : Nat) (h : Heap) (fresh : Nat)
    (m : MPRefs) (optsId : Nat) (conds : Conds) :
    Option (Heap × Nat × Nat × HookGroup) :=
  match collect_conds_hooks s fuel conds with
  | none => none
  | some (hooks, _) =>
    match heapFind h optsId with
    | none => none
    | some od =>
      match dictGet od "transformer_options" with
      | some (.ref toId) =>
        match copyGo fuel h fresh (.val (.ref m.wrappersId)) with
        | some (h, fresh, .inl wv) =>
          match setDictKey h toId "wrappers" wv with
          | none => none
          | some h =>
            match copyGo fuel h fresh (.val (.ref m.callbacksId)) with
            | some (h, fresh, .inl cv) =>
              match setDictKey h toId "callbacks" cv with
              | none => none
              | some h =>
                match apply_transformer_hooks fuel toId h
                    (hooks.get_type .TransformerOptions) with
                | none => none
                | some h =>
                  match register_hooks_step h optsId hooks.hooks with
                  | none => none
                  | some h =>
                    match setdefault_dict h fresh optsId "to_load_options" with
                    | none => none
                    | some (h, fresh, tlId) =>
                      match merge_to_load_options fuel toId tlId h fresh
                          ["wrappers", "callbacks"] with
                      | none => none
                      | some (h, fresh) => some (h, fresh, tlId, hooks)
            | _ => none
        | _ => none
      | _ => none

/-! ### General list lemmas -/

theorem foldl_append_eq_flatMap (f : α → List β) (l : List α) (init : List β) :
    l.foldl (fun acc x => acc ++ f x) init = init ++ l.flatMap f := by
  induction l generalizing init with
  | nil => simp
  | cons x xs ih => simp [ih, List.append_assoc]

/-- The values one entry contributes under one key (spec-level restatement
of the single-or-list normalization). -/
def condVals (proj : CondEntry → Option (CVal α)) (c : CondEntry) : List α :=
  match proj c with
  | none => []
  | some (.single a) => [a]
  | some (.many l) => l

theorem get_models_from_cond_eq (cond : List CondEntry)
    (proj : CondEntry → Option (CVal α)) :
    get_models_from_cond cond proj = cond.flatMap (condVals proj) := by
  have h : (fun (models : List α) (c : CondEntry) =>
      match proj c with
      | none => models
      | some (.single a) => models ++ [a]
      | some (.many l) => models ++ l) =
      fun (models : List α) c => models ++ condVals proj c := by
    funext ms c
    cases hc : proj c with
    | none => simp [condVals, hc]
    | some v => cases v <;> simp [condVals, hc]
  rw [get_models_from_cond, h, foldl_append_eq_flatMap]
  simp

/-- The control resources referenced anywhere in a conditioning set, in
branch-then-entry order (spec-level restatement). -/
def spec_control_refs (conds : Conds) : List Resource :=
  conds.flatMap (fun kc => kc.2.flatMap (condVals (·.control)))

/-- The gligen pairs referenced anywhere in a conditioning set. -/
def spec_gligen_refs (conds : Conds) : List (Nat × MRes) :=
  conds.flatMap (fun kc => kc.2.flatMap (condVals (·.gligen)))

/-- The additional models referenced anywhere in a conditioning set. -/
def spec_additional_refs (conds : Conds) : List MRes :=
  conds.flatMap (fun kc => kc.2.flatMap (condVals (·.additional_models)))

theorem branch_fold_eq (conds : Conds) (proj : CondEntry → Option (CVal α)) :
    conds.foldl (fun acc kc => acc ++ get_models_from_cond kc.2 proj) [] =
      conds.flatMap (fun kc => kc.2.flatMap (condVals proj)) := by
  rw [foldl_append_eq_flatMap (fun kc => get_models_from_cond kc.2 proj) conds []]
  simp [get_models_from_cond_eq]

/-! ### Deduplication lemmas -/

theorem dedupByGo_sublist [DecidableEq κ] (f : α → κ) (seen : List κ) (l : List α) :
    (dedupByGo f seen l).Sublist l := by
  induction l generalizing seen with
  | nil => simp [dedupByGo]
  | cons x xs ih =>
    rw [dedupByGo]
    by_cases h : f x ∈ seen
    · simp only [if_pos h]
      exact (ih seen).trans (List.sublist_cons_self x xs)
    · simp only [if_neg h]
      exact (ih (f x :: seen)).cons₂ x

theorem mem_of_mem_dedupBy [DecidableEq κ] {f : α → κ} {l : List α} {x : α}
    (h : x ∈ dedupBy f l) : x ∈ l :=
  (dedupByGo_sublist f [] l).mem h

theorem mem_map_dedupByGo [DecidableEq κ] (f : α → κ) (seen : List κ) (l : List α)
    (k : κ) : k ∈ (dedupByGo f seen l).map f ↔ k ∈ l.map f ∧ k ∉ seen := by
  induction l generalizing seen with
  | nil => simp [dedupByGo]
  | cons x xs ih =>
    rw [dedupByGo]
    by_cases h : f x ∈ seen
    · rw [if_pos h, ih seen]
      simp only [List.map_cons]
      constructor
      · rintro ⟨hm, hn⟩
        exact ⟨List.mem_cons_of_mem _ hm, hn⟩
      · rintro ⟨hm, hn⟩
        rcases List.mem_cons.mp hm with he | hm'
        · exact absurd (he ▸ h) hn
        · exact ⟨hm', hn⟩
    · rw [if_neg h]
      simp only [List.map_cons]
      constructor
      · intro hm
        rcases List.mem_cons.mp hm with he | hm'
        · exact ⟨List.mem_cons.mpr (Or.inl he), he ▸ h⟩
        · obtain ⟨hm2, hn2⟩ := (ih (f x :: seen)).mp hm'
          exact ⟨List.mem_cons.mpr (Or.inr hm2),
            fun hc => hn2 (List.mem_cons_of_mem _ hc)⟩
      · rintro ⟨hm, hn⟩
        rcases List.mem_cons.mp hm with he | hm'
        · exact List.mem_cons.mpr (Or.inl he)
        · by_cases hx : k = f x
          · exact List.mem_cons.mpr (Or.inl hx)
          · refine List.mem_cons.mpr (Or.inr ((ih (f x :: seen)).mpr ⟨hm', ?_⟩))
            intro hc
            rcases List.mem_cons.mp hc with h1 | h2
            · exact hx h1
            · exact hn h2

theorem map_dedupByGo_nodup [DecidableEq κ] (f : α → κ) (seen : List κ) (l : List α) :
    ((dedupByGo f seen l).map f).Nodup := by
  induction l generalizing seen with
  | nil => simp [dedupByGo]
  | cons x xs ih =>
    rw [dedupByGo]
    by_cases h : f x ∈ seen
    · simpa [if_pos h] using ih seen
    · simp only [if_neg h, List.map_cons, List.nodup_cons]
      refine ⟨fun hc => ?_, ih (f x :: seen)⟩
      exact ((mem_map_dedupByGo f (f x :: seen) xs (f x)).mp hc).2 (List.mem_cons_self _ _)

theorem map_dedupBy_nodup [DecidableEq κ] (f : α → κ) (l : List α) :
    ((dedupBy f l).map f).Nodup :=
  map_dedupByGo_nodup f [] l

theorem mem_map_dedupBy [DecidableEq κ] (f : α → κ) (l : List α) (k : κ) :
    k ∈ (dedupBy f l).map f ↔ k ∈ l.map f := by
  rw [dedupBy, mem_map_dedupByGo]
  simp

/-! ### collect_control characterization -/

theorem collect_control_ok (dtype : Nat) (l : List Resource) (cms : List MRes) (im : Nat)
    (h : collect_control dtype l = .ok (cms, im)) :
    cms = l.flatMap (fun r => r.getModels?.getD []) ∧
    im = (l.map (fun r => (r.imr?.map (fun f => f dtype)).getD 0)).sum := by
  induction l generalizing cms im with
  | nil =>
    rw [collect_control] at h
    cases h
    simp
  | cons r rest ih =>
    rw [collect_control] at h
    cases hg : r.getModels? with
    | none => rw [hg] at h; cases h
    | some ms =>
      cases hi : r.imr? with
      | none => rw [hg, hi] at h; cases h
      | some f =>
        rw [hg, hi] at h
        cases hr : collect_control dtype rest with
        | error e => rw [hr] at h; cases h
        | ok p =>
          rw [hr] at h
          cases h
          obtain ⟨h1, h2⟩ := ih p.1 p.2 (by rw [hr])
          simp [h1, h2, hg, hi]

/-- Helper: `get_additional_models_from_model_options` as a filter of the
registered hooks (spec-level form). -/
theorem hook_models_eq (model_options : Option ModelOptions) :
    get_additional_models_from_model_options model_options =
      (match model_options with
       | some mo =>
         match mo.registered_hooks with
         | some g => (g.hooks.filter (fun hk => hk.htype == HookType.AdditionalModels)).flatMap Hook.models
         | none => []
       | none => []) := by
  cases model_options with
  | none => rfl
  | some mo =>
    cases hmo : mo.registered_hooks with
    | none => simp [get_additional_models_from_model_options, hmo]
    | some g =>
      simp only [get_additional_models_from_model_options, hmo, HookGroup.get_type]
      rw [foldl_append_eq_flatMap Hook.models
        (g.hooks.filter (fun hk => hk.htype == HookType.AdditionalModels)) []]
      simp

/-- Claim C10: `get_additional_models_from_model_options` returns `[]` when
the options are absent or carry no registered hooks, and otherwise exactly
the concatenation, in hook order, of the model lists of the registered
`AdditionalModels`-type hooks, leaving hooks of other types untouched. -/
theorem C10_hook_model_collection :
    get_additional_models_from_model_options none = [] ∧
    (∀ mo : ModelOptions, mo.registered_hooks = none →
      get_additional_models_from_model_options (some mo) = []) ∧
    ∀ g : HookGroup, get_additional_models_from_model_options (some ⟨some g⟩) =
      (g.hooks.filter (fun hk => hk.htype == HookType.AdditionalModels)).flatMap Hook.models := by
  refine ⟨rfl, fun mo hmo => ?_, fun g => ?_⟩
  · rw [hook_models_eq]
    simp [hmo]
  · rw [hook_models_eq]

/-- Claim C10 witness: the collector evaluated through
`C10_hook_model_collection` on an options record without registered hooks
and on a concrete two-hook record (one hook of another type, untouched). -/
theorem C10_witness :
    get_additional_models_from_model_options (some ⟨none⟩) = [] ∧
    get_additional_models_from_model_options
        (some ⟨some ⟨[⟨1, .TransformerOptions, [⟨8, false⟩], none⟩,
                      ⟨2, .AdditionalModels, [⟨9, true⟩], none⟩]⟩⟩) = [⟨9, true⟩] := by
  refine ⟨(C10_hook_model_collection).2.1 ⟨none⟩ rfl, ?_⟩
  rw [(C10_hook_model_collection).2.2
    ⟨[⟨1, .TransformerOptions, [⟨8, false⟩], none⟩, ⟨2, .AdditionalModels, [⟨9, true⟩], none⟩]⟩]
  decide

/-- Claim C8: when auxiliary-resource collection fails (a conditioning entry
references a resource lacking a required capability), `_prepare_sampling`
propagates the failure and the device-manager load-call log is empty — no
load is ever issued, so there is no loaded state to tear down. -/
theorem C8_no_load_on_collection_failure (model : MPatcher) (noise_shape : Shape)
    (conds : Conds) (model_options : Option ModelOptions)
    (herr : get_additional_models conds model.model_dtype = .error ()) :
    prepare_sampling_core model noise_shape conds model_options = (.error (), []) := by
  rw [prepare_sampling_core, herr]

/-- A conditioning entry whose control resource lacks the `get_models`
capability. -/
def badEntry : CondEntry :=
  ⟨some (.single ⟨0, none, none, true, none, none⟩), none, none, none, 0⟩

/-- A primary resource used by concrete evaluations. -/
def cexModel : MPatcher :=
  ⟨100, 7, [⟨50, false⟩],
   fun p => [("context", [2, 4, 8 + 8 * p])],
   fun s cs => s.prod + cs.foldl (fun a kl => a + kl.2.foldl (fun b v => b + v.prod) 0) 0⟩

/-- Claim C8 witness: a concrete malformed conditioning set aborts
preparation with an empty load log. -/
theorem C8_witness :
    prepare_sampling_core cexModel [2, 3] [("positive", [badEntry])] none =
      (.error (), []) :=
  C8_no_load_on_collection_failure cexModel [2, 3] [("positive", [badEntry])] none rfl

/-- Characterization of the successful `get_additional_models` run: the model
list is the concatenation of the distinct control heads' dependency sets,
the gligen secondary payloads and the additional models, and the hint is the
sum of the distinct heads' inference-memory requirements. -/
theorem get_additional_models_ok (conds : Conds) (dtype : Nat) (ms : List MRes)
    (im : Nat) (h : get_additional_models conds dtype = .ok (ms, im)) :
    ms = (dedupBy Resource.rid (spec_control_refs conds)).flatMap
          (fun r => r.getModels?.getD [])
        ++ (spec_gligen_refs conds).map Prod.snd ++ spec_additional_refs conds ∧
    im = ((dedupBy Resource.rid (spec_control_refs conds)).map
        (fun r => (r.imr?.map (fun f => f dtype)).getD 0)).sum := by
  simp only [get_additional_models] at h
  rw [branch_fold_eq conds (·.control), branch_fold_eq conds (·.gligen),
    branch_fold_eq conds (·.additional_models)] at h
  cases hcc : collect_control dtype
      (dedupBy Resource.rid (conds.flatMap (fun kc => kc.2.flatMap (condVals (·.control))))) with
  | error e => rw [hcc] at h; cases h
  | ok p =>
    rw [hcc] at h
    simp only at h
    cases h
    obtain ⟨h1, h2⟩ := collect_control_ok dtype _ p.1 p.2 (by rw [hcc])
    exact ⟨by rw [h1]; rfl, by rw [h2]; rfl⟩

/-- Claim C1 (amended): the auxiliary-resource list handed to the device
manager is the plain concatenation of (a) the dependency sets of the
identity-deduplicated control-chain heads, (b) the gligen secondary
payloads, (c) the additional-models entries, (d) the models of registered
`AdditionalModels`-type hooks and (e) the primary resource's nested
additional models.  Only the control heads are deduplicated (a head
referenced from two branches contributes its dependency set once — the head
ids are pairwise distinct after deduplication); the concatenation itself is
not deduplicated, so a model reachable through two distinct heads, or
repeated across categories, appears once per contribution. -/
theorem C1_auxiliary_list (model : MPatcher) (noise_shape : Shape) (conds : Conds)
    (model_options : Option ModelOptions) (rm : Nat) (conds2 : Conds) (ms : List MRes)
    (hok : (prepare_sampling_core model noise_shape conds model_options).1 =
      .ok (rm, conds2, ms)) :
    ms = (dedupBy Resource.rid (spec_control_refs conds)).flatMap
          (fun r => r.getModels?.getD [])
        ++ (spec_gligen_refs conds).map Prod.snd
        ++ spec_additional_refs conds
        ++ get_additional_models_from_model_options model_options
        ++ model.get_nested_additional_models ∧
    ((dedupBy Resource.rid (spec_control_refs conds)).map Resource.rid).Nodup := by
  refine ⟨?_, map_dedupBy_nodup Resource.rid _⟩
  rw [prepare_sampling_core] at hok
  cases hga : get_additional_models conds model.model_dtype with
  | error e => rw [hga] at hok; cases hok
  | ok p =>
    rw [hga] at hok
    simp only [Except.ok.injEq, Prod.mk.injEq] at hok
    obtain ⟨-, -, rfl⟩ := hok
    obtain ⟨hm, -⟩ := get_additional_models_ok conds model.model_dtype p.1 p.2 (by rw [hga])
    rw [hm]

/-- The two control heads of the C1 counterexample; their chains share a
tail whose dependency set contains model 99. -/
def cnetA : Resource :=
  ⟨0, some [⟨10, true⟩, ⟨99, true⟩], some (fun _ => 3), true, none, none⟩

/-- Second control head; its dependency set also contains the shared model
99. -/
def cnetB : Resource :=
  ⟨1, some [⟨11, true⟩, ⟨99, true⟩], some (fun _ => 4), true, none, none⟩

/-- A two-branch conditioning set whose control chains share a tail: the
positive branch references head `cnetA`, the negative branch head `cnetB`,
and both dependency sets contain model 99. -/
def cexConds : Conds :=
  [("positive", [⟨some (.single cnetA), none, none, none, 0⟩]),
   ("negative", [⟨some (.single cnetB), none, none, none, 1⟩])]

/-- Claim C1 counterexample: the model (id 99) reachable from the control
chains of both branches appears twice — not once — in the auxiliary list
returned by preparation, so the list is not the identity-deduplicated union
the claim states. -/
theorem C1_counterexample :
    ((prepare_sampling_core cexModel [2, 3] cexConds none).1.toOption.map
      (fun out => (out.2.2.map MRes.mid, (out.2.2.map MRes.mid).count 99))) =
      some ([10, 99, 11, 99, 50], 2) := by
  decide

/-- Claim C1 witness: the amended concatenation shape evaluated on the
concrete two-branch conditioning set. -/
theorem C1_witness :
    ([⟨10, true⟩, ⟨99, true⟩, ⟨11, true⟩, ⟨99, true⟩, ⟨50, false⟩] : List MRes) =
      (dedupBy Resource.rid (spec_control_refs cexConds)).flatMap
          (fun r => r.getModels?.getD [])
        ++ (spec_gligen_refs cexConds).map Prod.snd
        ++ spec_additional_refs cexConds
        ++ get_additional_models_from_model_options none
        ++ cexModel.get_nested_additional_models ∧
    ((dedupBy Resource.rid (spec_control_refs cexConds)).map Resource.rid).Nodup :=
  C1_auxiliary_list cexModel [2, 3] cexConds none 100 cexConds
    [⟨10, true⟩, ⟨99, true⟩, ⟨11, true⟩, ⟨99, true⟩, ⟨50, false⟩] (by rfl)

/-- Claim C5: a successful preparation issues exactly one load call to the
device manager; its resource list is the primary resource followed by all
collected auxiliary resources, its required memory is the estimator's
required value plus the control inference-memory hint, its minimum memory is
the estimator's minimum value plus the same hint, and the hint is the sum of
`inference_memory_requirements(dtype)` over the distinct control heads. -/
theorem C5_single_load_call (model : MPatcher) (noise_shape : Shape) (conds : Conds)
    (model_options : Option ModelOptions) (ms : List MRes) (im : Nat)
    (hok : get_additional_models conds model.model_dtype = .ok (ms, im)) :
    (prepare_sampling_core model noise_shape conds model_options).2 =
      [⟨model.pid :: (ms ++ get_additional_models_from_model_options model_options
          ++ model.get_nested_additional_models).map MRes.mid,
        (estimate_memory model noise_shape conds).1 + im,
        (estimate_memory model noise_shape conds).2 + im⟩] ∧
    im = ((dedupBy Resource.rid (spec_control_refs conds)).map
        (fun r => (r.imr?.map (fun f => f model.model_dtype)).getD 0)).sum := by
  constructor
  · rw [prepare_sampling_core, hok]
  · exact (get_additional_models_ok conds model.model_dtype ms im hok).2

/-- Claim C5 witness: the single load call on the concrete conditioning set,
with required 204 + 7 and minimum 134 + 7. -/
theorem C5_witness :
    (prepare_sampling_core cexModel [2, 3] cexConds none).2 =
      [⟨[100, 10, 99, 11, 99, 50], 211, 141⟩] ∧
    (7 : Nat) = ((dedupBy Resource.rid (spec_control_refs cexConds)).map
        (fun r => (r.imr?.map (fun f => f cexModel.model_dtype)).getD 0)).sum :=
  C5_single_load_call cexModel [2, 3] cexConds none
    [⟨10, true⟩, ⟨99, true⟩, ⟨11, true⟩, ⟨99, true⟩] 7 (by rfl)

/-! ### Cleanup (claim C2) -/

theorem cleanup_additional_models_eq (models : List α) (mid : α → Nat) (can : α → Bool) :
    cleanup_additional_models models mid can = (models.filter can).map mid := by
  have key : ∀ (l : List α) (init : List Nat),
      l.foldl (fun log m => if can m then log ++ [mid m] else log) init =
        init ++ (l.filter can).map mid := by
    intro l
    induction l with
    | nil => intro init; simp
    | cons m rest ih =>
      intro init
      by_cases h : can m = true
      · simp [List.foldl_cons, h, ih, List.append_assoc]
      · simp [List.foldl_cons, h, ih]
  simpa [cleanup_additional_models] using key models []

/-- The invocation log of `cleanup_models` in closed form: the cleanup-capable
auxiliary models in order, then the cleanup-capable distinct control heads. -/
theorem cleanup_models_eq (conds : Conds) (models : List MRes) :
    cleanup_models conds models =
      (models.filter MRes.hasCleanup).map MRes.mid ++
      (((dedupBy Resource.rid (spec_control_refs conds)).filter
          Resource.hasCleanup).map Resource.rid) := by
  rw [cleanup_models]
  rw [branch_fold_eq conds (·.control)]
  rw [cleanup_additional_models_eq, cleanup_additional_models_eq]
  rfl

/-- Claim C2 (amended): after `cleanup_models`, the cleanup capability has
been invoked at least once for every control-referenced resource that
exposes it; every invocation belongs to a cleanup-capable resource of the
auxiliary list or of the control references (resources without the
capability are untouched and cause no error); and each resource is invoked
at most once per occurrence in the auxiliary list plus once more through the
deduplicated control references — not "at most once overall": a resource
both present in the auxiliary list and referenced as a control is cleaned
twice.  The hypothesis `hcons` states id-consistency (two control references
with the same identity expose the same capability), which is automatic for
Python object identity. -/
theorem C2_cleanup_log (conds : Conds) (models : List MRes)
    (hcons : ∀ r1 ∈ spec_control_refs conds, ∀ r2 ∈ spec_control_refs conds,
      r1.rid = r2.rid → r1.hasCleanup = r2.hasCleanup) :
    (∀ r ∈ spec_control_refs conds, r.hasCleanup = true →
        r.rid ∈ cleanup_models conds models) ∧
    (∀ i ∈ cleanup_models conds models,
        i ∈ (models.filter MRes.hasCleanup).map MRes.mid ∨
        ∃ r ∈ spec_control_refs conds, r.hasCleanup = true ∧ r.rid = i) ∧
    (∀ i : Nat, (cleanup_models conds models).count i ≤
        ((models.filter MRes.hasCleanup).map MRes.mid).count i + 1) := by
  rw [cleanup_models_eq]
  refine ⟨?_, ?_, ?_⟩
  · intro r hr hc
    refine List.mem_append_right _ ?_
    have hrid : r.rid ∈ (dedupBy Resource.rid (spec_control_refs conds)).map Resource.rid := by
      rw [mem_map_dedupBy]
      exact List.mem_map_of_mem Resource.rid hr
    obtain ⟨r', hr', hrr⟩ := List.mem_map.mp hrid
    have hr'mem : r' ∈ spec_control_refs conds := mem_of_mem_dedupBy hr'
    have hcl : r'.hasCleanup = true := by
      rw [hcons r' hr'mem r hr hrr, hc]
    refine List.mem_map.mpr ⟨r', List.mem_filter.mpr ⟨hr', hcl⟩, hrr⟩
  · intro i hi
    rcases List.mem_append.mp hi with h1 | h2
    · exact Or.inl h1
    · obtain ⟨r', hr', hrr⟩ := List.mem_map.mp h2
      have hm := List.mem_filter.mp hr'
      exact Or.inr ⟨r', mem_of_mem_dedupBy hm.1, hm.2, hrr⟩
  · intro i
    rw [List.count_append]
    have hnd : (((dedupBy Resource.rid (spec_control_refs conds)).filter
        Resource.hasCleanup).map Resource.rid).Nodup := by
      have hsub : (((dedupBy Resource.rid (spec_control_refs conds)).filter
          Resource.hasCleanup).map Resource.rid).Sublist
          ((dedupBy Resource.rid (spec_control_refs conds)).map Resource.rid) :=
        (List.filter_sublist _).map Resource.rid
      exact (map_dedupBy_nodup Resource.rid _).sublist hsub
    have hle := List.nodup_iff_count_le_one.mp hnd i
    omega

/-- The conditioning set of the C2 counterexample: its only entry references
as control a cleanup-capable resource with identity 5. -/
def cexCleanConds : Conds :=
  [("positive", [⟨some (.single ⟨5, none, none, true, none, none⟩), none, none, none, 0⟩])]

/-- Claim C2 counterexample: a resource (identity 5) that is both in the
auxiliary list and referenced as a control resource has its cleanup invoked
twice by `cleanup_models` — the claim's "at most once overall" fails. -/
theorem C2_counterexample :
    cleanup_models cexCleanConds [⟨5, true⟩] = [5, 5] ∧
    (cleanup_models cexCleanConds [⟨5, true⟩]).count 5 = 2 := by
  decide

/-- Claim C2 witness: the amended guarantees evaluated on the concrete
overlap scenario through `C2_cleanup_log`. -/
theorem C2_witness :
    (5 : Nat) ∈ cleanup_models cexCleanConds [⟨5, true⟩] ∧
    (cleanup_models cexCleanConds [⟨5, true⟩]).count 9 ≤
      ((([⟨5, true⟩] : List MRes).filter MRes.hasCleanup).map MRes.mid).count 9 + 1 := by
  have hcons : ∀ r1 ∈ spec_control_refs cexCleanConds,
      ∀ r2 ∈ spec_control_refs cexCleanConds, r1.rid = r2.rid →
      r1.hasCleanup = r2.hasCleanup := by
    intro r1 h1 r2 h2 hrid
    rw [List.mem_singleton.mp h1, List.mem_singleton.mp h2]
  have h := C2_cleanup_log cexCleanConds [⟨5, true⟩] hcons
  refine ⟨h.1 ⟨5, none, none, true, none, none⟩ (List.mem_singleton.mpr rfl) rfl, h.2.2 9⟩

/-! ### Memory estimation (claims C3 and C4) -/

/-- All (bucket, shape) pairs produced across every entry of every branch,
in traversal order (spec-level restatement). -/
def spec_shape_pairs (model : MPatcher) (conds : Conds) : List (String × Shape) :=
  conds.flatMap (fun kc => kc.2.flatMap (fun c => model.extra_conds_shapes c.payload))

/-- Spec-level grouping: bucket names in first-occurrence order, each with
every shape seen for that name, in order. -/
def groupShapes (pairs : List (String × Shape)) : CondShapes :=
  (dedupBy id (pairs.map Prod.fst)).map
    (fun k => (k, (pairs.filter (fun p => p.1 == k)).map Prod.snd))

/-- The first-seen maximal-volume shape of a list (volume = product of
dimensions; strict comparison keeps the earliest maximum). -/
def pickFirstMax : List Shape → Shape
  | [] => []
  | v :: rest => rest.foldl (fun best w => if w.prod > best.prod then w else best) v

/-- Spec-level minimum map: per bucket, only the first-seen largest shape. -/
def minShapes (cs : CondShapes) : CondShapes :=
  cs.map (fun kl => (kl.1, [pickFirstMax kl.2]))

theorem foldl_flatMap (g : α → List β) (step : γ → β → γ) (l : List α) (init : γ) :
    (l.flatMap g).foldl step init = l.foldl (fun acc x => (g x).foldl step acc) init := by
  induction l generalizing init with
  | nil => simp
  | cons x xs ih => simp [List.flatMap_cons, List.foldl_append, ih]

theorem pickFirstMax_snoc (l : List Shape) (v : Shape) (hl : l ≠ []) :
    pickFirstMax (l ++ [v]) =
      if v.prod > (pickFirstMax l).prod then v else pickFirstMax l := by
  cases l with
  | nil => cases hl rfl
  | cons x xs =>
    rw [List.cons_append, pickFirstMax, pickFirstMax, List.foldl_append]
    simp

theorem pickFirstMax_mem (l : List Shape) (hl : l ≠ []) : pickFirstMax l ∈ l := by
  cases l with
  | nil => cases hl rfl
  | cons x xs =>
    rw [pickFirstMax]
    have key : ∀ (ys : List Shape) (b : Shape),
        ys.foldl (fun best w => if w.prod > best.prod then w else best) b = b ∨
        ys.foldl (fun best w => if w.prod > best.prod then w else best) b ∈ ys := by
      intro ys
      induction ys with
      | nil => intro b; exact Or.inl rfl
      | cons y ys ih =>
        intro b
        rw [List.foldl_cons]
        by_cases hy : y.prod > b.prod
        · rw [if_pos hy]
          rcases ih y with h | h
          · exact Or.inr (by rw [h]; exact List.mem_cons_self _ _)
          · exact Or.inr (List.mem_cons_of_mem _ h)
        · rw [if_neg hy]
          rcases ih b with h | h
          · exact Or.inl h
          · exact Or.inr (List.mem_cons_of_mem _ h)
    rcases key xs x with h | h
    · rw [h]
      exact List.mem_cons_self _ _
    · exact List.mem_cons_of_mem _ h

theorem dedupByGo_snoc [DecidableEq κ] (f : α → κ) (seen : List κ) (l : List α) (x : α) :
    dedupByGo f seen (l ++ [x]) =
      if f x ∈ seen ∨ f x ∈ l.map f then dedupByGo f seen l
      else dedupByGo f seen l ++ [x] := by
  induction l generalizing seen with
  | nil =>
    simp only [List.nil_append, dedupByGo, List.map_nil]
    by_cases hx : f x ∈ seen
    · simp [hx]
    · simp [hx]
  | cons y ys ih =>
    simp only [List.cons_append, dedupByGo, List.map_cons, List.append_eq]
    by_cases hy : f y ∈ seen
    · rw [if_pos hy, if_pos hy, ih seen]
      have hiff : (f x ∈ seen ∨ f x ∈ ys.map f) ↔
          (f x ∈ seen ∨ f x ∈ f y :: ys.map f) := by
        constructor
        · rintro (h | h)
          · exact Or.inl h
          · exact Or.inr (List.mem_cons_of_mem _ h)
        · rintro (h | h)
          · exact Or.inl h
          · rcases List.mem_cons.mp h with he | hm
            · exact Or.inl (he ▸ hy)
            · exact Or.inr hm
      by_cases hc : f x ∈ seen ∨ f x ∈ f y :: ys.map f
      · rw [if_pos (hiff.mpr hc), if_pos hc]
      · rw [if_neg (fun h => hc (hiff.mp h)), if_neg hc]
    · rw [if_neg hy, if_neg hy, ih (f y :: seen)]
      have hiff : (f x ∈ f y :: seen ∨ f x ∈ ys.map f) ↔
          (f x ∈ seen ∨ f x ∈ f y :: ys.map f) := by
        constructor
        · rintro (h | h)
          · rcases List.mem_cons.mp h with he | hs
            · exact Or.inr (List.mem_cons.mpr (Or.inl he))
            · exact Or.inl hs
          · exact Or.inr (List.mem_cons_of_mem _ h)
        · rintro (h | h)
          · exact Or.inl (List.mem_cons_of_mem _ h)
          · rcases List.mem_cons.mp h with he | hm
            · exact Or.inl (List.mem_cons.mpr (Or.inl he))
            · exact Or.inr hm
      by_cases hc : f x ∈ seen ∨ f x ∈ f y :: ys.map f
      · rw [if_pos (hiff.mpr hc), if_pos hc]
      · rw [if_neg (fun h => hc (hiff.mp h)), if_neg hc]
        simp

theorem dedupBy_id_snoc [DecidableEq κ] (l : List κ) (k : κ) :
    dedupBy id (l ++ [k]) =
      if k ∈ l then dedupBy id l else dedupBy id l ++ [k] := by
  rw [dedupBy, dedupByGo_snoc, dedupBy]
  simp

theorem dedupBy_id_nodup [DecidableEq κ] (l : List κ) : (dedupBy id l).Nodup := by
  simpa using map_dedupBy_nodup id l

theorem mem_dedupBy_id [DecidableEq κ] (l : List κ) (k : κ) :
    k ∈ dedupBy id l ↔ k ∈ l := by
  have := mem_map_dedupBy id l k
  simpa using this

theorem csAppend_map_keys (ks : List String) (g : String → List Shape) (k : String)
    (v : Shape) (hnd : ks.Nodup) (hk : k ∈ ks) :
    csAppend (ks.map (fun x => (x, g x))) k v =
      ks.map (fun x => (x, if x = k then g x ++ [v] else g x)) := by
  induction ks with
  | nil => cases hk
  | cons a as ih =>
    rw [List.map_cons, List.map_cons, csAppend]
    by_cases ha : a = k
    · rw [if_pos ha]
      subst ha
      congr 1
      · rw [if_pos rfl]
      · refine (List.map_congr_left fun x hx => ?_).symm
        have hne : x ≠ a := fun he => (List.nodup_cons.mp hnd).1 (he ▸ hx)
        rw [if_neg hne]
    · rw [if_neg ha]
      have hk' : k ∈ as := by
        rcases List.mem_cons.mp hk with he | hm
        · exact absurd he.symm ha
        · exact hm
      rw [ih (List.nodup_cons.mp hnd).2 hk']
      congr 1
      rw [if_neg ha]

theorem csAppend_of_not_mem_keys (cs : CondShapes) (k : String) (v : Shape)
    (h : ∀ p ∈ cs, p.1 ≠ k) : csAppend cs k v = cs ++ [(k, [v])] := by
  induction cs with
  | nil => rfl
  | cons p rest ih =>
    obtain ⟨k', l⟩ := p
    rw [csAppend]
    rw [if_neg (h (k', l) (List.mem_cons_self _ _))]
    rw [ih (fun q hq => h q (List.mem_cons_of_mem _ hq))]
    rfl

theorem groupShapes_snoc (ps : List (String × Shape)) (k : String) (v : Shape) :
    groupShapes (ps ++ [(k, v)]) = csAppend (groupShapes ps) k v := by
  rw [groupShapes, groupShapes, List.map_append]
  simp only [List.map_cons, List.map_nil]
  rw [dedupBy_id_snoc]
  by_cases hk : k ∈ ps.map Prod.fst
  · rw [if_pos hk]
    rw [csAppend_map_keys _ _ _ _ (dedupBy_id_nodup _)
      ((mem_dedupBy_id (ps.map Prod.fst) k).mpr hk)]
    refine List.map_congr_left fun x hx => ?_
    rw [List.filter_append]
    by_cases hxk : x = k
    · subst hxk
      simp
    · have hkx : ¬k = x := fun he => hxk he.symm
      have : ¬((k, v).1 == x) = true := by simp [hkx]
      simp only [List.filter_cons, this, List.filter_nil]
      rw [if_neg hxk]
      simp
  · rw [if_neg hk]
    rw [List.map_append]
    rw [csAppend_of_not_mem_keys]
    · congr 1
      · refine List.map_congr_left fun x hx => ?_
        have hxmem : x ∈ ps.map Prod.fst := (mem_dedupBy_id _ _).mp hx
        have hxk : x ≠ k := fun he => hk (he ▸ hxmem)
        rw [List.filter_append]
        have hkx : ¬k = x := fun he => hxk he.symm
        have : ¬((k, v).1 == x) = true := by simp [hkx]
        simp only [List.filter_cons, this, List.filter_nil]
        simp
      · simp only [List.map_cons, List.map_nil]
        rw [List.filter_append]
        have h1 : ps.filter (fun p => p.1 == k) = [] := by
          rw [List.filter_eq_nil_iff]
          intro p hp
          simp only [beq_iff_eq]
          exact fun he => hk (he ▸ List.mem_map_of_mem Prod.fst hp)
        simp [h1]
    · intro p hp
      obtain ⟨x, hx, rfl⟩ := List.mem_map.mp hp
      have hxmem : x ∈ ps.map Prod.fst := (mem_dedupBy_id _ _).mp hx
      exact fun he => hk (he ▸ hxmem)

theorem groupShapes_vals_ne_nil (pairs : List (String × Shape)) :
    ∀ p ∈ groupShapes pairs, p.2 ≠ [] := by
  intro p hp
  rw [groupShapes] at hp
  obtain ⟨k, hk, rfl⟩ := List.mem_map.mp hp
  have hk2 : k ∈ pairs.map Prod.fst := (mem_dedupBy_id _ _).mp hk
  obtain ⟨q, hq, hqk⟩ := List.mem_map.mp hk2
  intro hnil
  have hmem : q ∈ pairs.filter (fun p => p.1 == k) :=
    List.mem_filter.mpr ⟨hq, by simp [hqk]⟩
  rw [List.map_eq_nil_iff] at hnil
  rw [hnil] at hmem
  cases hmem

theorem minShapes_csAppend (cs : CondShapes) (k : String) (v : Shape)
    (hne : ∀ p ∈ cs, p.2 ≠ []) :
    minShapes (csAppend cs k v) = csMinUpd (minShapes cs) k v := by
  induction cs with
  | nil => simp [csAppend, minShapes, csMinUpd, pickFirstMax]
  | cons p rest ih =>
    obtain ⟨k', l⟩ := p
    rw [csAppend]
    by_cases hk : k' = k
    · rw [if_pos hk]
      subst hk
      rw [minShapes, minShapes, List.map_cons, List.map_cons, csMinUpd]
      rw [if_pos rfl]
      have hl : l ≠ [] := hne (k', l) (List.mem_cons_self _ _)
      rw [pickFirstMax_snoc l v hl]
      simp only [List.headD_cons]
      by_cases hv : v.prod > (pickFirstMax l).prod
      · rw [if_pos hv, if_pos hv]
      · rw [if_neg hv, if_neg hv]
    · rw [if_neg hk]
      rw [minShapes, minShapes, List.map_cons, List.map_cons, csMinUpd]
      rw [if_neg hk]
      rw [← minShapes, ← minShapes, ih (fun q hq => hne q (List.mem_cons_of_mem _ hq))]

theorem cs_fold_spec (pairs : List (String × Shape)) :
    pairs.foldl (fun acc kv => (csAppend acc.1 kv.1 kv.2, csMinUpd acc.2 kv.1 kv.2))
      (([] : CondShapes), ([] : CondShapes)) =
      (groupShapes pairs, minShapes (groupShapes pairs)) := by
  induction pairs using List.reverseRecOn with
  | nil => simp [groupShapes, minShapes, dedupBy, dedupByGo]
  | append_singleton ps p ih =>
    rw [List.foldl_append, ih]
    obtain ⟨k, v⟩ := p
    simp only [List.foldl_cons, List.foldl_nil]
    rw [groupShapes_snoc]
    rw [minShapes_csAppend _ _ _ (groupShapes_vals_ne_nil ps)]

/-- Two-pass characterization of `estimate_memory`: `required` queries the
model with the doubled batch dimension and the full per-bucket shape lists;
`minimum` queries it with the original batch dimension and only the
first-seen maximal-volume shape per bucket. -/
theorem estimate_memory_spec (model : MPatcher) (noise_shape : Shape) (conds : Conds) :
    estimate_memory model noise_shape conds =
      (model.memory_required (noise_shape.headD 0 * 2 :: noise_shape.tail)
        (groupShapes (spec_shape_pairs model conds)),
       model.memory_required (noise_shape.headD 0 :: noise_shape.tail)
        (minShapes (groupShapes (spec_shape_pairs model conds)))) := by
  have hflat : (spec_shape_pairs model conds).foldl
      (fun acc kv => (csAppend acc.1 kv.1 kv.2, csMinUpd acc.2 kv.1 kv.2))
      (([] : CondShapes), ([] : CondShapes)) =
      conds.foldl
        (fun acc kc => kc.2.foldl (fun acc c =>
          (model.extra_conds_shapes c.payload).foldl
            (fun acc kv => (csAppend acc.1 kv.1 kv.2, csMinUpd acc.2 kv.1 kv.2)) acc) acc)
        (([] : CondShapes), ([] : CondShapes)) := by
    rw [spec_shape_pairs]
    simp only [foldl_flatMap]
  rw [estimate_memory, ← hflat, cs_fold_spec]

/-- Claim C3: `estimate_memory` computes `required` with the leading (batch)
dimension doubled and, per bucket name, the full list of shapes seen across
all entries of all branches, and `minimum` with the original leading
dimension and only the single largest-volume shape per bucket, ties keeping
the first-seen maximal shape. -/
theorem C3_two_pass_estimate (model : MPatcher) (noise_shape : Shape) (conds : Conds) :
    estimate_memory model noise_shape conds =
      (model.memory_required (noise_shape.headD 0 * 2 :: noise_shape.tail)
        (groupShapes (spec_shape_pairs model conds)),
       model.memory_required (noise_shape.headD 0 :: noise_shape.tail)
        (minShapes (groupShapes (spec_shape_pairs model conds)))) :=
  estimate_memory_spec model noise_shape conds

/-- Relates the minimum map to the full map: bucket-by-bucket (same names,
same order), the minimum side's shapes are all drawn from the full side's
list for that bucket. -/
def MinSelects (csm csf : CondShapes) : Prop :=
  List.Forall₂ (fun pm pf => pm.1 = pf.1 ∧ ∀ v ∈ pm.2, v ∈ pf.2) csm csf

/-- The claim's validity assumption on the primary resource: its
memory-requirement function does not decrease when the batch dimension is
doubled and each bucket's selected shapes are widened back to the full list
they were selected from. -/
def MonotoneMemory (mr : Shape → CondShapes → Nat) : Prop :=
  ∀ (b : Nat) (rest : Shape) (csf csm : CondShapes), MinSelects csm csf →
    mr (b :: rest) csm ≤ mr (b * 2 :: rest) csf

theorem minShapes_minSelects (cs : CondShapes) (hne : ∀ p ∈ cs, p.2 ≠ []) :
    MinSelects (minShapes cs) cs := by
  induction cs with
  | nil => exact List.Forall₂.nil
  | cons p rest ih =>
    rw [minShapes, List.map_cons]
    refine List.Forall₂.cons ⟨rfl, ?_⟩ ?_
    · intro v hv
      rw [List.mem_singleton.mp hv]
      exact pickFirstMax_mem p.2 (hne p (List.mem_cons_self _ _))
    · exact ih fun q hq => hne q (List.mem_cons_of_mem _ hq)

/-- Claim C4: for every valid primary resource — one whose
memory-requirement function is monotone in the batch dimension and in
per-bucket shape selection — the minimum component of the estimate is at
most the required component. -/
theorem C4_minimum_le_required (model : MPatcher) (noise_shape : Shape) (conds : Conds)
    (hmono : MonotoneMemory model.memory_required) :
    (estimate_memory model noise_shape conds).2 ≤
      (estimate_memory model noise_shape conds).1 := by
  rw [estimate_memory_spec]
  exact hmono (noise_shape.headD 0) noise_shape.tail _ _
    (minShapes_minSelects _ (groupShapes_vals_ne_nil _))

/-- A primary resource with a manifestly monotone memory-requirement
function, used to witness claim C4. -/
def c4Model : MPatcher :=
  ⟨101, 7, [], fun p => [("context", [2, 4, 8 + 8 * p])],
   fun s cs => s.prod * (1 + cs.length)⟩

/-- Claim C4 witness: minimum ≤ required on the concrete conditioning set,
through `C4_minimum_le_required`. -/
theorem C4_witness :
    (estimate_memory c4Model [2, 3] cexConds).2 ≤
      (estimate_memory c4Model [2, 3] cexConds).1 :=
  C4_minimum_le_required c4Model [2, 3] cexConds (by
    intro b rest csf csm hsub
    have hlen : csm.length = csf.length := List.Forall₂.length_eq hsub
    show (b :: rest).prod * (1 + csm.length) ≤ (b * 2 :: rest).prod * (1 + csf.length)
    rw [hlen, List.prod_cons, List.prod_cons]
    have hb : b * rest.prod ≤ b * 2 * rest.prod :=
      Nat.mul_le_mul_right rest.prod (Nat.le_mul_of_pos_right b (by omega))
    exact Nat.mul_le_mul_right _ hb)

/-! ### Control-chain traversal (claims C6 and C7) -/

/-- `rs` lists the nodes of an acyclic control chain from `c` to its root:
each node's `previous` reference resolves in the store to the next listed
node, and the last node has no previous link. -/
inductive IsChain (s : Store) : Resource → List Resource → Prop
  | last (r : Resource) (h : r.previous = none) : IsChain s r [r]
  | cons (r next : Resource) (rest : List Resource) (hp : r.previous = some next.rid)
      (hf : storeFind s next.rid = some next) (hc : IsChain s next rest) :
      IsChain s r (r :: rest)

/-- Claim C6 (amended, acyclic part): on an N-node acyclic chain the walk
terminates within fuel N, performs exactly N extra-hook lookups — the trace
gains exactly the N node ids, in chain order — and collects exactly the
nodes' extra-hook groups. -/
theorem C6_chain_walk (s : Store) (c : Resource) (rs : List Resource)
    (hchain : IsChain s c rs) (lst : List HookGroup) (trace : List Nat) :
    get_extra_hooks_from_cnet s rs.length c lst trace =
      some (lst ++ rs.filterMap Resource.extraHooks, trace ++ rs.map Resource.rid) := by
  induction hchain generalizing lst trace with
  | last r h =>
    cases he : r.extraHooks with
    | none => simp [get_extra_hooks_from_cnet, h, he]
    | some g => simp [get_extra_hooks_from_cnet, h, he]
  | cons r next rest hp hf hc ih =>
    cases he : r.extraHooks with
    | none =>
      simp only [List.length_cons, get_extra_hooks_from_cnet, he, hp, hf]
      rw [ih]
      simp [List.filterMap_cons, he]
    | some g =>
      simp only [List.length_cons, get_extra_hooks_from_cnet, he, hp, hf]
      rw [ih]
      simp [List.filterMap_cons, he]

/-- The tail node of a concrete two-node chain, carrying one extra-hook
group. -/
def chainTail : Resource :=
  ⟨1, none, none, false, some ⟨[⟨202, .AdditionalModels, [], none⟩]⟩, none⟩

/-- The head node of the concrete two-node chain. -/
def chainHead : Resource :=
  ⟨0, none, none, false, some ⟨[⟨201, .TransformerOptions, [], none⟩]⟩, some 1⟩

/-- The store resolving the two-node chain. -/
def chainStore : Store := [(0, chainHead), (1, chainTail)]

/-- Claim C6 witness: walking the concrete 2-node chain with fuel 2 performs
exactly the two lookups `[0, 1]` and collects both extra-hook groups, via
`C6_chain_walk`. -/
theorem C6_witness :
    get_extra_hooks_from_cnet chainStore 2 chainHead [] [] =
      some ([⟨[⟨201, .TransformerOptions, [], none⟩]⟩,
             ⟨[⟨202, .AdditionalModels, [], none⟩]⟩], [0, 1]) :=
  C6_chain_walk chainStore chainHead [chainHead, chainTail]
    (IsChain.cons chainHead chainTail [chainTail] rfl rfl
      (IsChain.last chainTail rfl)) [] []

/-- First node of a two-node cyclic chain (0 ↦ 1 ↦ 0). -/
def cycNode0 : Resource := ⟨0, none, none, false, none, some 1⟩

/-- Second node of the cyclic chain. -/
def cycNode1 : Resource := ⟨1, none, none, false, none, some 0⟩

/-- The store resolving the cyclic chain. -/
def cycStore : Store := [(0, cycNode0), (1, cycNode1)]

/-- On the cyclic store, the walk completes for no fuel bound, from either
node. -/
theorem cyc_walk_none (fuel : Nat) : ∀ (lst : List HookGroup) (trace : List Nat),
    get_extra_hooks_from_cnet cycStore fuel cycNode0 lst trace = none ∧
    get_extra_hooks_from_cnet cycStore fuel cycNode1 lst trace = none := by
  induction fuel with
  | zero => intro lst trace; exact ⟨rfl, rfl⟩
  | succ n ih =>
    intro lst trace
    constructor
    · rw [get_extra_hooks_from_cnet]
      simpa [cycNode0, storeFind, cycStore] using
        (ih lst (trace ++ [cycNode0.rid])).2
    · rw [get_extra_hooks_from_cnet]
      simpa [cycNode1, storeFind, cycStore] using
        (ih lst (trace ++ [cycNode1.rid])).1

/-- Claim C6 counterexample: on a chain containing a cycle (node 0's
`previous` is node 1 and vice versa) the traversal does not report an
error — it simply never completes.  In this fuelled embedding of the
Python recursion (which has no cycle protection), the walk on the 2-node
cycle still returns `none` at fuel 1000, while `C6_chain_walk` shows any
acyclic 2-node chain completes at fuel 2; `cyc_walk_none` extends this to
every fuel bound, modelling nontermination rather than error reporting. -/
theorem C6_counterexample :
    cycNode0.previous = some cycNode1.rid ∧
    cycNode1.previous = some cycNode0.rid ∧
    get_extra_hooks_from_cnet cycStore 1000 cycNode0 [] [] = none :=
  ⟨rfl, rfl, (cyc_walk_none 1000 [] []).1⟩

/-! ### Hook-group membership lemmas (claim C7) -/

theorem mem_add (g : HookGroup) (h x : Hook) :
    x ∈ (g.add h).hooks ↔ x ∈ g.hooks ∨ x = h := by
  rw [HookGroup.add]
  by_cases hm : h ∈ g.hooks
  · rw [if_pos hm]
    constructor
    · exact Or.inl
    · rintro (hx | rfl)
      · exact hx
      · exact hm
  · rw [if_neg hm]
    simp

theorem add_nodup (g : HookGroup) (h : Hook) (hg : g.hooks.Nodup) :
    (g.add h).hooks.Nodup := by
  rw [HookGroup.add]
  by_cases hm : h ∈ g.hooks
  · rwa [if_pos hm]
  · rw [if_neg hm]
    show (g.hooks ++ [h]).Nodup
    rw [List.nodup_append]
    refine ⟨hg, List.nodup_singleton h, fun a ha hb => ?_⟩
    exact hm ((List.mem_singleton.mp hb) ▸ ha)

theorem mem_addAll (l : List Hook) (g : HookGroup) (x : Hook) :
    x ∈ (g.addAll l).hooks ↔ x ∈ g.hooks ∨ x ∈ l := by
  induction l generalizing g with
  | nil => simp [HookGroup.addAll]
  | cons h rest ih =>
    rw [HookGroup.addAll, List.foldl_cons, ← HookGroup.addAll, ih, mem_add]
    constructor
    · rintro ((hx | rfl) | hx)
      · exact Or.inl hx
      · exact Or.inr (List.mem_cons_self _ _)
      · exact Or.inr (List.mem_cons_of_mem _ hx)
    · rintro (hx | hx)
      · exact Or.inl (Or.inl hx)
      · rcases List.mem_cons.mp hx with rfl | hm
        · exact Or.inl (Or.inr rfl)
        · exact Or.inr hm

theorem addAll_nodup (l : List Hook) (g : HookGroup) (hg : g.hooks.Nodup) :
    (g.addAll l).hooks.Nodup := by
  induction l generalizing g with
  | nil => simpa [HookGroup.addAll] using hg
  | cons h rest ih =>
    rw [HookGroup.addAll, List.foldl_cons, ← HookGroup.addAll]
    exact ih _ (add_nodup g h hg)

theorem mem_foldl_addAll (l : List HookGroup) (g0 : HookGroup) (x : Hook) :
    x ∈ (l.foldl (fun acc g => acc.addAll g.hooks) g0).hooks ↔
      x ∈ g0.hooks ∨ ∃ gr ∈ l, x ∈ gr.hooks := by
  induction l generalizing g0 with
  | nil => simp
  | cons g rest ih =>
    rw [List.foldl_cons, ih, mem_addAll]
    constructor
    · rintro ((hx | hx) | ⟨gr, hgr, hx⟩)
      · exact Or.inl hx
      · exact Or.inr ⟨g, List.mem_cons_self _ _, hx⟩
      · exact Or.inr ⟨gr, List.mem_cons_of_mem _ hgr, hx⟩
    · rintro (hx | ⟨gr, hgr, hx⟩)
      · exact Or.inl (Or.inl hx)
      · rcases List.mem_cons.mp hgr with rfl | hm
        · exact Or.inl (Or.inr hx)
        · exact Or.inr ⟨gr, hm, hx⟩

theorem mem_combine_all_hooks (l : List HookGroup) (g : HookGroup)
    (h : combine_all_hooks l = some g) (x : Hook) :
    x ∈ g.hooks ↔ ∃ gr ∈ l, x ∈ gr.hooks := by
  rw [combine_all_hooks] at h
  by_cases hl : l.isEmpty
  · rw [if_pos hl] at h; cases h
  · rw [if_neg hl] at h
    cases h
    simpa using mem_foldl_addAll l ⟨[]⟩ x

/-- Hooks attached directly to the entries of a conditioning set (spec-level
restatement). -/
def spec_entry_hooks (conds : Conds) : List Hook :=
  conds.flatMap (fun kc => kc.2.flatMap entryHooksOf)

/-- The extra hooks of the store nodes at the given trace positions. -/
def trace_extra_hooks (s : Store) (tr : List Nat) : List Hook :=
  tr.flatMap (fun i =>
    match storeFind s i with
    | some r =>
      match r.extraHooks with
      | some g => g.hooks
      | none => []
    | none => [])

/-- A consistent store maps each id to a resource carrying that id. -/
theorem storeFind_rid (s : Store) (hcons : ∀ p ∈ s, (p.2).rid = p.1) (i : Nat)
    (r : Resource) (h : storeFind s i = some r) :
    r.rid = i ∧ storeFind s r.rid = some r := by
  rw [storeFind] at h
  cases hf : s.find? (fun p => p.1 == i) with
  | none => rw [hf] at h; cases h
  | some q =>
    rw [hf] at h
    cases h
    have h1 := List.find?_some hf
    have h2 : q.1 = i := by simpa using h1
    have h3 : q.2.rid = q.1 := hcons q (List.mem_of_find?_eq_some hf)
    constructor
    · rw [h3, h2]
    · rw [h3, h2, storeFind, hf]
      rfl

/-- What one chain walk adds: the trace grows by a block `t` and the hook
lists grow by exactly the extra-hook groups of the nodes at `t`. -/
theorem walk_spec (s : Store) (hcons : ∀ p ∈ s, (p.2).rid = p.1) (fuel : Nat) :
    ∀ (c : Resource) (lst : List HookGroup) (tr : List Nat)
      (out : List HookGroup × List Nat),
      storeFind s c.rid = some c →
      get_extra_hooks_from_cnet s fuel c lst tr = some out →
      ∃ d t, out.1 = lst ++ d ∧ out.2 = tr ++ t ∧
        d.flatMap HookGroup.hooks = trace_extra_hooks s t := by
  induction fuel with
  | zero => intro c lst tr out _ hw; cases hw
  | succ n ih =>
    intro c lst tr out hreg hw
    rw [get_extra_hooks_from_cnet] at hw
    cases hprev : c.previous with
    | none =>
      simp only [hprev] at hw
      cases he : c.extraHooks with
      | none =>
        simp only [he] at hw
        cases hw
        refine ⟨[], [c.rid], by simp, rfl, ?_⟩
        rw [trace_extra_hooks]
        simp [hreg, he]
      | some g =>
        simp only [he] at hw
        cases hw
        refine ⟨[g], [c.rid], rfl, rfl, ?_⟩
        rw [trace_extra_hooks]
        simp [hreg, he]
    | some p =>
      simp only [hprev] at hw
      cases hfind : storeFind s p with
      | none =>
        simp only [hfind] at hw
        cases hw
      | some prev =>
        simp only [hfind] at hw
        obtain ⟨-, hprevreg⟩ := storeFind_rid s hcons p prev hfind
        cases he : c.extraHooks with
        | none =>
          simp only [he] at hw
          obtain ⟨d, t, h1, h2, h3⟩ := ih prev _ _ out hprevreg hw
          refine ⟨d, c.rid :: t, h1, ?_, ?_⟩
          · rw [h2, List.append_assoc]
            rfl
          · rw [h3]
            simp [trace_extra_hooks, hreg, he]
        | some g =>
          simp only [he] at hw
          obtain ⟨d, t, h1, h2, h3⟩ := ih prev _ _ out hprevreg hw
          refine ⟨g :: d, c.rid :: t, ?_, ?_, ?_⟩
          · rw [h1, List.append_assoc]
            rfl
          · rw [h2, List.append_assoc]
            rfl
          · rw [List.flatMap_cons, h3]
            simp [trace_extra_hooks, hreg, he]

/-- The control-net collection of one branch in flatMap form. -/
theorem cnets_fold_eq (cond : List CondEntry) :
    cond.foldl cnetStep [] = cond.flatMap (condVals (·.control)) := by
  have h : cnetStep = fun (l : List Resource) c => l ++ condVals (·.control) c := by
    funext l c
    cases hc : c.control with
    | none => simp [condVals, cnetStep, hc]
    | some v => cases v <;> simp [condVals, cnetStep, hc]
  rw [h, foldl_append_eq_flatMap]
  simp

theorem mem_fold_entry_hooks (cond : List CondEntry) (g0 : HookGroup) (x : Hook) :
    x ∈ (cond.foldl entryHookStep g0).hooks ↔
      x ∈ g0.hooks ∨ x ∈ cond.flatMap entryHooksOf := by
  induction cond generalizing g0 with
  | nil => simp
  | cons c rest ih =>
    rw [List.foldl_cons, ih, List.flatMap_cons]
    cases hc : c.hooks with
    | none => simp [entryHookStep, entryHooksOf, hc]
    | some hg => simp [entryHookStep, entryHooksOf, hc, mem_addAll, or_assoc]

theorem fold_entry_hooks_nodup (cond : List CondEntry) (g0 : HookGroup)
    (hg : g0.hooks.Nodup) :
    (cond.foldl entryHookStep g0).hooks.Nodup := by
  induction cond generalizing g0 with
  | nil => simpa
  | cons c rest ih =>
    rw [List.foldl_cons]
    cases hc : c.hooks with
    | none => simp only [entryHookStep, hc]; exact ih g0 hg
    | some hgrp => simp only [entryHookStep, hc]; exact ih _ (addAll_nodup _ _ hg)

theorem fold_walk_none (s : Store) (fuel : Nat) (rest : List Resource) :
    rest.foldl (walkStep s fuel) none = none := by
  induction rest with
  | nil => rfl
  | cons r rs ih =>
    rw [List.foldl_cons]
    exact ih

/-- What the fold of chain walks over a head list adds to the accumulator. -/
theorem walks_fold_spec (s : Store) (hcons : ∀ p ∈ s, (p.2).rid = p.1) (fuel : Nat) :
    ∀ (heads : List Resource) (acc out : List HookGroup × List Nat),
      (∀ r ∈ heads, storeFind s r.rid = some r) →
      heads.foldl (walkStep s fuel) (some acc) = some out →
      ∃ d t, out.1 = acc.1 ++ d ∧ out.2 = acc.2 ++ t ∧
        d.flatMap HookGroup.hooks = trace_extra_hooks s t := by
  intro heads
  induction heads with
  | nil =>
    intro acc out _ h
    cases h
    exact ⟨[], [], by simp, by simp, rfl⟩
  | cons r rest ih =>
    intro acc out hreg h
    obtain ⟨a1, a2⟩ := acc
    rw [List.foldl_cons] at h
    simp only [walkStep] at h
    cases hw : get_extra_hooks_from_cnet s fuel r a1 a2 with
    | none =>
      rw [hw, fold_walk_none s fuel rest] at h
      cases h
    | some pr =>
      rw [hw] at h
      obtain ⟨d1, t1, hd1, ht1, hf1⟩ :=
        walk_spec s hcons fuel r a1 a2 pr (hreg r (List.mem_cons_self _ _)) hw
      obtain ⟨d2, t2, hd2, ht2, hf2⟩ :=
        ih pr out (fun q hq => hreg q (List.mem_cons_of_mem _ hq)) h
      refine ⟨d1 ++ d2, t1 ++ t2, ?_, ?_, ?_⟩
      · rw [hd2, hd1, List.append_assoc]
      · rw [ht2, ht1, List.append_assoc]
      · rw [List.flatMap_append, hf1, hf2, trace_extra_hooks, trace_extra_hooks,
          trace_extra_hooks, List.flatMap_append]

/-- What one `get_hooks_from_cond` call produces: possibly-deduplicated
union of the incoming group, the branch's entry hooks, and the extra hooks
of the nodes visited by its chain walks (recorded in the returned trace). -/
theorem get_hooks_from_cond_spec (s : Store) (hcons : ∀ p ∈ s, (p.2).rid = p.1)
    (fuel : Nat) (cond : List CondEntry) (g0 : HookGroup)
    (hreg : ∀ r ∈ cond.flatMap (condVals (·.control)), storeFind s r.rid = some r)
    (out : HookGroup × List Nat)
    (h : get_hooks_from_cond s fuel cond g0 = some out) :
    (g0.hooks.Nodup → out.1.hooks.Nodup) ∧
    ∀ x : Hook, x ∈ out.1.hooks ↔ x ∈ g0.hooks ∨
      x ∈ cond.flatMap entryHooksOf ∨ x ∈ trace_extra_hooks s out.2 := by
  rw [get_hooks_from_cond] at h
  simp only [cnets_fold_eq] at h
  cases hwf : (dedupBy Resource.rid (cond.flatMap (condVals (·.control)))).foldl
      (walkStep s fuel) (some ([], [])) with
  | none =>
    rw [hwf] at h
    cases h
  | some pr =>
    rw [hwf] at h
    have hheads : ∀ r ∈ dedupBy Resource.rid (cond.flatMap (condVals (·.control))),
        storeFind s r.rid = some r :=
      fun r hr => hreg r (mem_of_mem_dedupBy hr)
    obtain ⟨d, t, hd, ht, hf⟩ := walks_fold_spec s hcons fuel _ ([], []) pr hheads hwf
    simp only [List.nil_append] at hd ht
    cases hcomb : combine_all_hooks pr.1 with
    | none =>
      simp only [hcomb] at h
      cases h
      have hempty : pr.1 = [] := by
        rw [combine_all_hooks] at hcomb
        by_cases he : pr.1.isEmpty
        · exact List.isEmpty_iff.mp he
        · rw [if_neg he] at hcomb
          cases hcomb
      constructor
      · exact fun hg => fold_entry_hooks_nodup cond g0 hg
      · intro x
        rw [mem_fold_entry_hooks]
        have htr : trace_extra_hooks s t = [] := by
          rw [← hf, ← hd, hempty]
          rfl
        constructor
        · rintro (hx | hx)
          · exact Or.inl hx
          · exact Or.inr (Or.inl hx)
        · rintro (hx | hx | hx)
          · exact Or.inl hx
          · exact Or.inr hx
          · rw [ht, htr] at hx
            cases hx
    | some extra =>
      simp only [hcomb] at h
      cases h
      constructor
      · exact fun hg => addAll_nodup _ _ (fold_entry_hooks_nodup cond g0 hg)
      · intro x
        rw [mem_addAll, mem_fold_entry_hooks]
        have hx3 : x ∈ extra.hooks ↔ x ∈ trace_extra_hooks s t := by
          rw [mem_combine_all_hooks pr.1 extra hcomb x, ← hf, hd]
          exact List.mem_flatMap.symm
        rw [ht]
        constructor
        · rintro ((hx | hx) | hx)
          · exact Or.inl hx
          · exact Or.inr (Or.inl hx)
          · exact Or.inr (Or.inr (hx3.mp hx))
        · rintro (hx | hx | hx)
          · exact Or.inl (Or.inl hx)
          · exact Or.inl (Or.inr hx)
          · exact Or.inr (hx3.mpr hx)

theorem fold_branch_none (s : Store) (fuel : Nat) (rest : Conds) :
    rest.foldl (branchStep s fuel) none = none := by
  induction rest with
  | nil => rfl
  | cons kc ks ih =>
    rw [List.foldl_cons]
    exact ih

theorem trace_extra_append (s : Store) (a b : List Nat) :
    trace_extra_hooks s (a ++ b) = trace_extra_hooks s a ++ trace_extra_hooks s b := by
  rw [trace_extra_hooks, trace_extra_hooks, trace_extra_hooks, List.flatMap_append]

theorem spec_entry_hooks_cons (kc : String × List CondEntry) (rest : Conds) :
    spec_entry_hooks (kc :: rest) =
      kc.2.flatMap entryHooksOf ++ spec_entry_hooks rest := by
  rw [spec_entry_hooks, List.flatMap_cons, ← spec_entry_hooks]

/-- What the per-branch loop produces, for any starting group and trace. -/
theorem collect_fold_spec (s : Store) (hcons : ∀ p ∈ s, (p.2).rid = p.1) (fuel : Nat) :
    ∀ (conds : Conds) (g0 : HookGroup) (tr0 : List Nat) (out : HookGroup × List Nat),
      (∀ r ∈ spec_control_refs conds, storeFind s r.rid = some r) →
      conds.foldl (branchStep s fuel) (some (g0, tr0)) = some out →
      (g0.hooks.Nodup → out.1.hooks.Nodup) ∧
      ∃ t, out.2 = tr0 ++ t ∧
        ∀ x : Hook, x ∈ out.1.hooks ↔ x ∈ g0.hooks ∨
          x ∈ spec_entry_hooks conds ∨ x ∈ trace_extra_hooks s t := by
  intro conds
  induction conds with
  | nil =>
    intro g0 tr0 out _ h
    cases h
    refine ⟨fun hg => hg, [], by simp, fun x => ?_⟩
    simp [spec_entry_hooks, trace_extra_hooks]
  | cons kc rest ih =>
    intro g0 tr0 out hreg h
    rw [List.foldl_cons] at h
    simp only [branchStep] at h
    cases hb : get_hooks_from_cond s fuel kc.2 g0 with
    | none =>
      rw [hb, fold_branch_none s fuel rest] at h
      cases h
    | some pr =>
      rw [hb] at h
      have hregb : ∀ r ∈ kc.2.flatMap (condVals (·.control)),
          storeFind s r.rid = some r := by
        intro r hr
        refine hreg r ?_
        rw [spec_control_refs, List.flatMap_cons]
        exact List.mem_append_left _ hr
      obtain ⟨hnd1, hmem1⟩ := get_hooks_from_cond_spec s hcons fuel kc.2 g0 hregb pr hb
      have hregr : ∀ r ∈ spec_control_refs rest, storeFind s r.rid = some r := by
        intro r hr
        refine hreg r ?_
        rw [spec_control_refs, List.flatMap_cons]
        exact List.mem_append_right _ hr
      obtain ⟨hnd2, t2, ht2, hmem2⟩ := ih pr.1 (tr0 ++ pr.2) out hregr h
      refine ⟨fun hg => hnd2 (hnd1 hg), pr.2 ++ t2, ?_, fun x => ?_⟩
      · rw [ht2, List.append_assoc]
      · rw [hmem2 x, hmem1 x, spec_entry_hooks_cons, trace_extra_append]
        simp only [List.mem_append]
        tauto

/-- Claim C7 (amended): the per-branch traversal dedups only each branch's
control heads, so a chain node reachable through two distinct heads — or
through heads of two different branches — is visited once per head, and the
trace may repeat node ids.  Nevertheless, because hook groups deduplicate on
add, the collected group is duplicate-free and equals, as a set, the union
of all entries' hooks with the extra hooks of the distinct visited chain
nodes. -/
theorem C7_hook_union (s : Store) (fuel : Nat) (conds : Conds) (g : HookGroup)
    (tr : List Nat) (hcons : ∀ p ∈ s, (p.2).rid = p.1)
    (hreg : ∀ r ∈ spec_control_refs conds, storeFind s r.rid = some r)
    (hrun : collect_conds_hooks s fuel conds = some (g, tr)) :
    g.hooks.Nodup ∧
    ∀ x : Hook, x ∈ g.hooks ↔
      x ∈ spec_entry_hooks conds ∨ x ∈ trace_extra_hooks s tr := by
  rw [collect_conds_hooks] at hrun
  obtain ⟨hnd, t, ht, hmem⟩ :=
    collect_fold_spec s hcons fuel conds ⟨[]⟩ [] (g, tr) hreg hrun
  simp only [List.nil_append] at ht
  subst ht
  refine ⟨hnd (by simp), fun x => ?_⟩
  simpa using hmem x

/-- A conditioning set whose positive branch references the chain head and
whose negative branch references the chain's shared tail directly. -/
def c7Conds : Conds :=
  [("positive", [⟨some (.single chainHead), none, none,
      some ⟨[⟨101, .Weight, [], none⟩]⟩, 0⟩]),
   ("negative", [⟨some (.single chainTail), none, none,
      some ⟨[⟨102, .Weight, [], none⟩]⟩, 0⟩])]

/-- Claim C7 counterexample: the shared tail node (id 1) is visited twice —
once along the positive branch's chain and once as the negative branch's own
head — so the traversal trace `[0, 1, 1]` repeats a chain node, and node 1's
extra-hook group is collected twice (deduplicated only later, by the group's
add). -/
theorem C7_counterexample :
    (collect_conds_hooks chainStore 10 c7Conds).map Prod.snd = some [0, 1, 1] ∧
    ¬ ([0, 1, 1] : List Nat).Nodup := by
  decide

/-- Claim C7 witness: the duplicate-freeness and the membership
characterization at the shared tail's extra hook, through `C7_hook_union` on
the concrete conditioning set. -/
theorem C7_witness :
    (⟨[⟨101, .Weight, [], none⟩, ⟨201, .TransformerOptions, [], none⟩,
       ⟨202, .AdditionalModels, [], none⟩, ⟨102, .Weight, [], none⟩]⟩ :
      HookGroup).hooks.Nodup ∧
    ((⟨202, .AdditionalModels, [], none⟩ : Hook) ∈
        (⟨[⟨101, .Weight, [], none⟩, ⟨201, .TransformerOptions, [], none⟩,
           ⟨202, .AdditionalModels, [], none⟩, ⟨102, .Weight, [], none⟩]⟩ :
          HookGroup).hooks ↔
      (⟨202, .AdditionalModels, [], none⟩ : Hook) ∈ spec_entry_hooks c7Conds ∨
      (⟨202, .AdditionalModels, [], none⟩ : Hook) ∈
        trace_extra_hooks chainStore [0, 1, 1]) := by
  have hcons : ∀ p ∈ chainStore, (p.2).rid = p.1 := by
    intro p hp
    rcases List.mem_cons.mp hp with rfl | hp
    · rfl
    · rcases List.mem_cons.mp hp with rfl | hp
      · rfl
      · cases hp
  have hreg : ∀ r ∈ spec_control_refs c7Conds, storeFind chainStore r.rid = some r := by
    intro r hr
    rw [show spec_control_refs c7Conds = [chainHead, chainTail] from rfl] at hr
    rcases List.mem_cons.mp hr with rfl | hr
    · rfl
    · rcases List.mem_cons.mp hr with rfl | hr
      · rfl
      · cases hr
  have h := C7_hook_union chainStore 10 c7Conds
    ⟨[⟨101, .Weight, [], none⟩, ⟨201, .TransformerOptions, [], none⟩,
      ⟨202, .AdditionalModels, [], none⟩, ⟨102, .Weight, [], none⟩]⟩
    [0, 1, 1] hcons hreg (by decide)
  exact ⟨h.1, h.2 _⟩

/-! ### Frame reasoning over the options heap (claim C9)

`R` is the protected region: the set of dict ids reachable from the primary
resource's own wrapper/callback registrations.  The claim is that
`prepare_model_patcher` leaves every dict in `R` untouched — it deep-copies
before merging, and all its in-place writes land outside `R`. -/

/-- The dict ids one dict's entries reference. -/
def refsOf (d : HDict) : List Nat :=
  d.filterMap (fun kv =>
    match kv.2 with
    | .ref j => some j
    | .leaf _ => none)

/-- `R` is closed under references: protected dicts only reference
protected dicts. -/
def RClosed (R : List Nat) (h : Heap) : Prop :=
  ∀ i ∈ R, ∀ d, heapFind h i = some d → ∀ j ∈ refsOf d, j ∈ R

/-- No dict outside `R` references into `R` (the options structure and the
hook payloads do not alias the primary resource's registrations). -/
def NoRefInto (R : List Nat) (h : Heap) : Prop :=
  ∀ i, i ∉ R → ∀ d, heapFind h i = some d → ∀ j ∈ refsOf d, j ∉ R

/-- All heap entries over `R` agree between two heaps. -/
def FrameOn (R : List Nat) (h h2 : Heap) : Prop :=
  ∀ i ∈ R, heapFind h2 i = heapFind h i

/-- Every allocated dict id is below the allocation counter. -/
def IdsBelow (h : Heap) (n : Nat) : Prop :=
  ∀ p ∈ h, p.1 < n

/-- Every protected id is below the allocation counter. -/
def RBelow (R : List Nat) (n : Nat) : Prop :=
  ∀ i ∈ R, i < n

theorem FrameOn_refl (R : List Nat) (h : Heap) : FrameOn R h h :=
  fun _ _ => rfl

theorem FrameOn_trans (R : List Nat) {h1 h2 h3 : Heap} (a : FrameOn R h1 h2)
    (b : FrameOn R h2 h3) : FrameOn R h1 h3 :=
  fun i hi => (b i hi).trans (a i hi)

theorem heapFind_heapSet (h : Heap) (i : Nat) (d : HDict) (j : Nat) :
    heapFind (heapSet h i d) j = if j = i then some d else heapFind h j := by
  induction h with
  | nil =>
    by_cases hj : j = i
    · subst hj
      simp [heapSet, heapFind, List.find?]
    · have h1 : ¬(i == j) = true := by
        simp only [beq_iff_eq]
        exact fun he => hj he.symm
      simp [heapSet, heapFind, List.find?, h1, hj]
  | cons p rest ih =>
    obtain ⟨a, da⟩ := p
    rw [heapSet]
    by_cases ha : a = i
    · subst ha
      by_cases hj : j = a
      · subst hj
        simp [heapFind, List.find?]
      · have h1 : ¬(a == j) = true := by
          simp only [beq_iff_eq]
          exact fun he => hj he.symm
        simp [heapFind, List.find?, h1, hj]
    · rw [if_neg ha]
      by_cases hj : j = a
      · subst hj
        have h2 : ¬j = i := fun he => ha he
        simp [heapFind, List.find?, h2]
      · have h1 : ¬(a == j) = true := by
          simp only [beq_iff_eq]
          exact fun he => hj he.symm
        simp only [heapFind, List.find?, h1]
        exact ih

theorem heapFind_some_mem (h : Heap) (i : Nat) (d : HDict)
    (hf : heapFind h i = some d) : (i, d) ∈ h := by
  rw [heapFind] at hf
  cases hq : h.find? (fun p => p.1 == i) with
  | none => rw [hq] at hf; cases hf
  | some q =>
    rw [hq] at hf
    cases hf
    have h1 : q.1 = i := by simpa using List.find?_some hq
    have h2 : q ∈ h := List.mem_of_find?_eq_some hq
    have : q = (i, q.2) := by rw [← h1]
    rw [← this]
    exact h2

theorem mem_heapSet (h : Heap) (i : Nat) (d : HDict) (p : Nat × HDict)
    (hp : p ∈ heapSet h i d) : p = (i, d) ∨ p ∈ h := by
  induction h with
  | nil => simpa [heapSet] using hp
  | cons q rest ih =>
    obtain ⟨a, da⟩ := q
    rw [heapSet] at hp
    by_cases ha : a = i
    · rw [if_pos ha] at hp
      rcases List.mem_cons.mp hp with rfl | hp
      · exact Or.inl rfl
      · exact Or.inr (List.mem_cons_of_mem _ hp)
    · rw [if_neg ha] at hp
      rcases List.mem_cons.mp hp with rfl | hp
      · exact Or.inr (List.mem_cons_self _ _)
      · rcases ih hp with h1 | h1
        · exact Or.inl h1
        · exact Or.inr (List.mem_cons_of_mem _ h1)

theorem IdsBelow_heapSet (h : Heap) (n i : Nat) (d : HDict) (hib : IdsBelow h n)
    (hi : i < n) : IdsBelow (heapSet h i d) n := by
  intro p hp
  rcases mem_heapSet h i d p hp with rfl | hp
  · exact hi
  · exact hib p hp

theorem refsOf_cons (k : String) (v : HVal) (d : HDict) :
    refsOf ((k, v) :: d) =
      (match v with
       | .ref j => [j]
       | .leaf _ => []) ++ refsOf d := by
  cases v <;> simp [refsOf, List.filterMap_cons]

theorem mem_refsOf_dictSet (d : HDict) (k : String) (v : HVal) (j : Nat)
    (hj : j ∈ refsOf (dictSet d k v)) : j ∈ refsOf d ∨ v = .ref j := by
  induction d with
  | nil =>
    rw [dictSet, refsOf_cons] at hj
    cases v with
    | leaf xs => simp [refsOf] at hj
    | ref q =>
      simp [refsOf] at hj
      exact Or.inr (by rw [hj])
  | cons p rest ih =>
    obtain ⟨k', v'⟩ := p
    rw [dictSet] at hj
    by_cases hk : k' = k
    · rw [if_pos hk] at hj
      rw [refsOf_cons] at hj
      rcases List.mem_append.mp hj with h1 | h1
      · cases v with
        | leaf xs => cases h1
        | ref q =>
          refine Or.inr ?_
          rw [List.mem_singleton.mp h1]
      · refine Or.inl ?_
        rw [refsOf_cons]
        exact List.mem_append_right _ h1
    · rw [if_neg hk] at hj
      rw [refsOf_cons] at hj
      rcases List.mem_append.mp hj with h1 | h1
      · refine Or.inl ?_
        rw [refsOf_cons]
        exact List.mem_append_left _ h1
      · rcases ih h1 with h2 | h2
        · refine Or.inl ?_
          rw [refsOf_cons]
          exact List.mem_append_right _ h2
        · exact Or.inr h2

theorem dictGet_ref_in_refsOf (d : HDict) (k : String) (j : Nat)
    (h : dictGet d k = some (.ref j)) : j ∈ refsOf d := by
  rw [dictGet] at h
  cases hq : d.find? (fun p => p.1 == k) with
  | none => rw [hq] at h; cases h
  | some q =>
    rw [hq] at h
    have hq2 : q.2 = HVal.ref j := by simpa using h
    have h2 : q ∈ d := List.mem_of_find?_eq_some hq
    rw [refsOf]
    refine List.mem_filterMap.mpr ⟨q, h2, ?_⟩
    rw [hq2]

/-- Setting one key of a dict outside `R` (to a value not referencing `R`)
leaves `R` untouched and preserves the no-aliasing invariant. -/
theorem setDictKey_spec (R : List Nat) (h : Heap) (i : Nat) (k : String) (v : HVal)
    (h2 : Heap) (hset : setDictKey h i k v = some h2) (hiR : i ∉ R)
    (hv : ∀ j, v = .ref j → j ∉ R) (hno : NoRefInto R h) :
    FrameOn R h h2 ∧ NoRefInto R h2 ∧ ∀ n, IdsBelow h n → IdsBelow h2 n := by
  rw [setDictKey] at hset
  cases hd : heapFind h i with
  | none => rw [hd] at hset; cases hset
  | some d =>
    rw [hd] at hset
    cases hset
    refine ⟨?_, ?_, ?_⟩
    · intro a haR
      rw [heapFind_heapSet]
      have hne : ¬a = i := by
        intro he
        exact hiR (he ▸ haR)
      rw [if_neg hne]
    · intro a haR d2 hfind j hj
      rw [heapFind_heapSet] at hfind
      by_cases ha : a = i
      · rw [if_pos ha] at hfind
        cases hfind
        rcases mem_refsOf_dictSet d k v j hj with hjj | hjj
        · exact hno i hiR d hd j hjj
        · exact hv j hjj
      · rw [if_neg ha] at hfind
        exact hno a haR d2 hfind j hj
    · intro n hib
      refine IdsBelow_heapSet h n i (dictSet d k v) hib ?_
      exact hib (i, d) (heapFind_some_mem h i d hd)

/-- What a successful copy does to the heap: the allocation counter only
grows, existing entries below the old counter are untouched, every new
entry sits at a fresh id and references only fresh ids, and the returned
value references only fresh ids. -/
theorem copyGo_spec (fuel : Nat) :
    ∀ (h : Heap) (fresh : Nat) (j : CJob) (h2 : Heap) (fresh2 : Nat)
      (out : HVal ⊕ HDict),
      copyGo fuel h fresh j = some (h2, fresh2, out) →
      IdsBelow h fresh →
      fresh ≤ fresh2 ∧ IdsBelow h2 fresh2 ∧
      (∀ i, i < fresh → heapFind h2 i = heapFind h i) ∧
      (∀ i d, heapFind h2 i = some d → heapFind h i = some d ∨
        (fresh ≤ i ∧ ∀ q ∈ refsOf d, fresh ≤ q ∧ q < fresh2)) ∧
      (∀ v, out = .inl v → ∀ q, v = .ref q → fresh ≤ q ∧ q < fresh2) ∧
      (∀ es, out = .inr es → ∀ q ∈ refsOf es, fresh ≤ q ∧ q < fresh2) := by
  induction fuel with
  | zero => intro h fresh j h2 fresh2 out hc; cases hc
  | succ n ih =>
    intro h fresh j h2 fresh2 out hc hib
    match j with
    | .val (.leaf xs) =>
      rw [copyGo] at hc
      cases hc
      refine ⟨Nat.le_refl _, hib, fun i _ => rfl, fun i d hd => Or.inl hd, ?_, ?_⟩
      · intro v hv1 q hq
        injection hv1 with hv2
        rw [← hv2] at hq
        cases hq
      · rintro es h1
        cases h1
    | .val (.ref i0) =>
      rw [copyGo] at hc
      cases hfind : heapFind h i0 with
      | none => simp [hfind] at hc
      | some d =>
        simp only [hfind] at hc
        cases hinner : copyGo n h fresh (.entries d) with
        | none => simp [hinner] at hc
        | some res =>
          obtain ⟨h', fresh', out'⟩ := res
          simp only [hinner] at hc
          cases out' with
          | inl v' => simp at hc
          | inr d' =>
            cases hc
            obtain ⟨hle, hib', hfr, hnew, -, hes⟩ :=
              ih h fresh (.entries d) h' fresh' (.inr d') hinner hib
            have hd'refs := hes d' rfl
            refine ⟨by omega, ?_, ?_, ?_, ?_, ?_⟩
            · refine IdsBelow_heapSet h' (fresh' + 1) fresh' d' ?_ (by omega)
              intro p hp
              have := hib' p hp
              omega
            · intro i hi
              rw [heapFind_heapSet, if_neg (by omega), hfr i hi]
            · intro i dd hdd
              rw [heapFind_heapSet] at hdd
              by_cases hi : i = fresh'
              · rw [if_pos hi] at hdd
                cases hdd
                refine Or.inr ⟨by omega, fun q hq => ?_⟩
                have := hd'refs q hq
                omega
              · rw [if_neg hi] at hdd
                rcases hnew i dd hdd with h1 | h1
                · exact Or.inl h1
                · refine Or.inr ⟨h1.1, fun q hq => ?_⟩
                  have := h1.2 q hq
                  omega
            · intro v hv1 q hq
              injection hv1 with hv2
              rw [← hv2] at hq
              injection hq with hq3
              omega
            · rintro es h1
              cases h1
    | .entries [] =>
      rw [copyGo] at hc
      cases hc
      refine ⟨Nat.le_refl _, hib, fun i _ => rfl, fun i d hd => Or.inl hd, ?_, ?_⟩
      · rintro v h1
        cases h1
      · intro es h1 q hq
        injection h1 with h2
        rw [← h2] at hq
        cases hq
    | .entries ((k, v) :: rest) =>
      rw [copyGo] at hc
      cases hv : copyGo n h fresh (.val v) with
      | none => simp [hv] at hc
      | some res1 =>
        obtain ⟨h', fresh', out1⟩ := res1
        simp only [hv] at hc
        cases out1 with
        | inr d1 => simp at hc
        | inl v' =>
          cases hrest : copyGo n h' fresh' (.entries rest) with
          | none => simp [hrest] at hc
          | some res2 =>
            obtain ⟨h'', fresh'', out2⟩ := res2
            simp only [hrest] at hc
            cases out2 with
            | inl v2 => simp at hc
            | inr rest' =>
              obtain ⟨hle1, hib1, hfr1, hnew1, hv1, -⟩ :=
                ih h fresh (.val v) h' fresh' (.inl v') hv hib
              obtain ⟨hle2, hib2, hfr2, hnew2, -, hes2⟩ :=
                ih h' fresh' (.entries rest) h'' fresh'' (.inr rest') hrest hib1
              cases hc
              refine ⟨by omega, hib2, ?_, ?_, ?_, ?_⟩
              · intro i hi
                rw [hfr2 i (by omega), hfr1 i hi]
              · intro i dd hdd
                rcases hnew2 i dd hdd with h1 | h1
                · rcases hnew1 i dd h1 with h2 | h2
                  · exact Or.inl h2
                  · refine Or.inr ⟨h2.1, fun q hq => ?_⟩
                    have := h2.2 q hq
                    omega
                · refine Or.inr ⟨by omega, fun q hq => ?_⟩
                  have := h1.2 q hq
                  omega
              · rintro w h1
                cases h1
              · intro es h1 q hq
                injection h1 with h2
                rw [← h2, refsOf_cons] at hq
                rcases List.mem_append.mp hq with h1 | h1
                · cases hv' : v' with
                  | leaf xs => rw [hv'] at h1; cases h1
                  | ref q0 =>
                    rw [hv'] at h1
                    have hq0 := hv1 v' rfl q0 hv'
                    rw [List.mem_singleton.mp h1]
                    omega
                · have := hes2 rest' rfl q h1
                  omega

/-- Deep copy never touches the protected region: it writes only at fresh
ids and the copy references only fresh ids. -/
theorem copyGo_frame (R : List Nat) (fuel : Nat) (h : Heap) (fresh : Nat) (j : CJob)
    (h2 : Heap) (fresh2 : Nat) (out : HVal ⊕ HDict)
    (hc : copyGo fuel h fresh j = some (h2, fresh2, out))
    (hib : IdsBelow h fresh) (hrb : RBelow R fresh) (hno : NoRefInto R h) :
    FrameOn R h h2 ∧ NoRefInto R h2 ∧ IdsBelow h2 fresh2 ∧ fresh ≤ fresh2 ∧
      RBelow R fresh2 ∧
      (∀ v, out = .inl v → ∀ q, v = .ref q → q ∉ R) := by
  obtain ⟨hle, hib2, hfr, hnew, hv, -⟩ := copyGo_spec fuel h fresh j h2 fresh2 out hc hib
  refine ⟨?_, ?_, hib2, hle, ?_, ?_⟩
  · intro i hiR
    exact hfr i (hrb i hiR)
  · intro i hiR d hd q hq
    rcases hnew i d hd with h1 | h1
    · exact hno i hiR d h1 q hq
    · have := h1.2 q hq
      intro hqR
      have := hrb q hqR
      omega
  · intro i hiR
    have := hrb i hiR
    omega
  · intro v hv1 q hq hqR
    have := hv v hv1 q hq
    have := hrb q hqR
    omega

/-- In-place merge of dicts outside `R` never touches the protected region
and preserves the no-aliasing invariant. -/
theorem mergeGo_spec (R : List Nat) (fuel : Nat) :
    ∀ (h : Heap) (j : MJob) (h2 : Heap),
      mergeGo fuel h j = some h2 →
      NoRefInto R h →
      (match j with
       | .dicts d1 d2 => d1 ∉ R ∧ d2 ∉ R
       | .entries d1 es => d1 ∉ R ∧ ∀ q ∈ refsOf es, q ∉ R) →
      FrameOn R h h2 ∧ NoRefInto R h2 ∧ ∀ n, IdsBelow h n → IdsBelow h2 n := by
  induction fuel with
  | zero => intro h j h2 hm; cases hm
  | succ n ih =>
    intro h j h2 hm hno hj
    match j with
    | .dicts d1 d2 =>
      rw [mergeGo] at hm
      cases hfind : heapFind h d2 with
      | none => simp [hfind] at hm
      | some d2d =>
        simp only [hfind] at hm
        refine ih h (.entries d1 d2d) h2 hm hno ⟨hj.1, ?_⟩
        intro q hq
        exact hno d2 hj.2 d2d hfind q hq
    | .entries d1 [] =>
      rw [mergeGo] at hm
      cases hm
      exact ⟨FrameOn_refl R h, hno, fun n hib => hib⟩
    | .entries d1 ((k, v2) :: rest) =>
      rw [mergeGo] at hm
      cases hfind : heapFind h d1 with
      | none => simp [hfind] at hm
      | some d1d =>
        simp only [hfind] at hm
        have hd1R : d1 ∉ R := hj.1
        have hrestR : ∀ q ∈ refsOf rest, q ∉ R := by
          intro q hq
          refine hj.2 q ?_
          rw [refsOf_cons]
          exact List.mem_append_right _ hq
        have hv2R : ∀ q, v2 = .ref q → q ∉ R := by
          intro q hq
          refine hj.2 q ?_
          rw [refsOf_cons, hq]
          exact List.mem_append_left _ (List.mem_singleton.mpr rfl)
        have hd1mem : ∀ n2, IdsBelow h n2 → d1 < n2 := fun n2 hib =>
          hib (d1, d1d) (heapFind_some_mem h d1 d1d hfind)
        cases hget : dictGet d1d k with
        | none =>
          simp only [hget] at hm
          have hset : NoRefInto R (heapSet h d1 (dictSet d1d k v2)) := by
            intro a haR d hd q hq
            rw [heapFind_heapSet] at hd
            by_cases ha : a = d1
            · rw [if_pos ha] at hd
              cases hd
              rcases mem_refsOf_dictSet d1d k v2 q hq with h1 | h1
              · exact hno d1 hd1R d1d hfind q h1
              · exact hv2R q h1
            · rw [if_neg ha] at hd
              exact hno a haR d hd q hq
          have hfr1 : FrameOn R h (heapSet h d1 (dictSet d1d k v2)) := by
            intro a haR
            have hne : ¬a = d1 := by
              intro he
              exact hd1R (he ▸ haR)
            rw [heapFind_heapSet, if_neg hne]
          obtain ⟨hfr2, hno2, hib2⟩ :=
            ih (heapSet h d1 (dictSet d1d k v2)) (.entries d1 rest) h2 hm hset
              ⟨hd1R, hrestR⟩
          refine ⟨FrameOn_trans R hfr1 hfr2, hno2, fun n2 hib => hib2 n2 ?_⟩
          exact IdsBelow_heapSet h n2 d1 _ hib (hd1mem n2 hib)
        | some v1 =>
          simp only [hget] at hm
          match hv1 : v1, hv2 : v2 with
          | .leaf l1, .leaf l2 =>
            simp only at hm
            have hset : NoRefInto R (heapSet h d1 (dictSet d1d k (.leaf (l1 ++ l2)))) := by
              intro a haR d hd q hq
              rw [heapFind_heapSet] at hd
              by_cases ha : a = d1
              · rw [if_pos ha] at hd
                cases hd
                rcases mem_refsOf_dictSet d1d k _ q hq with h1 | h1
                · exact hno d1 hd1R d1d hfind q h1
                · cases h1
              · rw [if_neg ha] at hd
                exact hno a haR d hd q hq
            have hfr1 : FrameOn R h (heapSet h d1 (dictSet d1d k (.leaf (l1 ++ l2)))) := by
              intro a haR
              have hne : ¬a = d1 := by
                intro he
                exact hd1R (he ▸ haR)
              rw [heapFind_heapSet, if_neg hne]
            obtain ⟨hfr2, hno2, hib2⟩ :=
              ih _ (.entries d1 rest) h2 hm hset ⟨hd1R, hrestR⟩
            refine ⟨FrameOn_trans R hfr1 hfr2, hno2, fun n2 hib => hib2 n2 ?_⟩
            exact IdsBelow_heapSet h n2 d1 _ hib (hd1mem n2 hib)
          | .ref r1, .ref r2 =>
            simp only at hm
            cases hrec : mergeGo n h (.dicts r1 r2) with
            | none => simp [hrec] at hm
            | some hmid =>
              simp only [hrec] at hm
              have hr1R : r1 ∉ R :=
                hno d1 hd1R d1d hfind r1 (dictGet_ref_in_refsOf d1d k r1 hget)
              have hr2R : r2 ∉ R := hv2R r2 rfl
              obtain ⟨hfrA, hnoA, hibA⟩ :=
                ih h (.dicts r1 r2) hmid hrec hno ⟨hr1R, hr2R⟩
              obtain ⟨hfrB, hnoB, hibB⟩ :=
                ih hmid (.entries d1 rest) h2 hm hnoA ⟨hd1R, hrestR⟩
              exact ⟨FrameOn_trans R hfrA hfrB, hnoB,
                fun n2 hib => hibB n2 (hibA n2 hib)⟩
          | .leaf l1, .ref r2 =>
            simp only at hm
            exact ih h (.entries d1 rest) h2 hm hno ⟨hd1R, hrestR⟩
          | .ref r1, .leaf l2 =>
            simp only at hm
            exact ih h (.entries d1 rest) h2 hm hno ⟨hd1R, hrestR⟩

/-- `setdefault` on a dict outside `R`: frame, no-aliasing, and the
returned dict id lies outside `R`. -/
theorem setdefault_spec (R : List Nat) (h : Heap) (fresh : Nat) (i : Nat) (k : String)
    (h2 : Heap) (fresh2 tl : Nat)
    (hs : setdefault_dict h fresh i k = some (h2, fresh2, tl))
    (hiR : i ∉ R) (hno : NoRefInto R h) (hib : IdsBelow h fresh) (hrb : RBelow R fresh) :
    FrameOn R h h2 ∧ NoRefInto R h2 ∧ IdsBelow h2 fresh2 ∧ fresh ≤ fresh2 ∧
      RBelow R fresh2 ∧ tl ∉ R := by
  rw [setdefault_dict] at hs
  cases hfind : heapFind h i with
  | none => simp [hfind] at hs
  | some d =>
    simp only [hfind] at hs
    cases hget : dictGet d k with
    | some v =>
      cases v with
      | ref j =>
        simp only [hget] at hs
        simp only [Option.some.injEq, Prod.mk.injEq] at hs
        obtain ⟨rfl, rfl, rfl⟩ := hs
        refine ⟨FrameOn_refl R h, hno, hib, Nat.le_refl _, hrb, ?_⟩
        exact hno i hiR d hfind j (dictGet_ref_in_refsOf d k j hget)
      | leaf xs => simp [hget] at hs
    | none =>
      simp only [hget] at hs
      cases hsd : setDictKey (heapSet h fresh []) i k (.ref fresh) with
      | none => simp [hsd] at hs
      | some h3 =>
        simp only [hsd] at hs
        simp only [Option.some.injEq, Prod.mk.injEq] at hs
        obtain ⟨rfl, rfl, rfl⟩ := hs
        have hnoA : NoRefInto R (heapSet h fresh []) := by
          intro a haR dd hdd q hq
          rw [heapFind_heapSet] at hdd
          by_cases ha : a = fresh
          · rw [if_pos ha] at hdd
            cases hdd
            cases hq
          · rw [if_neg ha] at hdd
            exact hno a haR dd hdd q hq
        have hfrA : FrameOn R h (heapSet h fresh []) := by
          intro a haR
          have hne : ¬a = fresh := by
            intro he
            have := hrb a haR
            omega
          rw [heapFind_heapSet, if_neg hne]
        obtain ⟨hfrB, hnoB, hibB⟩ :=
          setDictKey_spec R (heapSet h fresh []) i k (.ref fresh) h3 hsd hiR
            (fun j hj hjR => by
              injection hj with hj2
              have := hrb j hjR
              omega) hnoA
        refine ⟨FrameOn_trans R hfrA hfrB, hnoB, ?_, by omega, ?_, ?_⟩
        · refine hibB (fresh + 1) ?_
          refine IdsBelow_heapSet h (fresh + 1) fresh [] ?_ (by omega)
          intro p hp
          have := hib p hp
          omega
        · intro a haR
          have := hrb a haR
          omega
        · intro hfR
          have := hrb fresh hfR
          omega

/-- The `TransformerOptions`-hook merge loop: frame and no-aliasing, given
that no hook payload aliases `R`. -/
theorem apply_transformer_hooks_spec (R : List Nat) (fuel : Nat) (toId : Nat) :
    ∀ (hooks : List Hook) (h h2 : Heap),
      apply_transformer_hooks fuel toId h hooks = some h2 →
      toId ∉ R →
      (∀ hk ∈ hooks, ∀ p, hk.payload = some p → p ∉ R) →
      NoRefInto R h →
      FrameOn R h h2 ∧ NoRefInto R h2 ∧ ∀ n, IdsBelow h n → IdsBelow h2 n := by
  intro hooks
  induction hooks with
  | nil =>
    intro h h2 happ _ _ hno
    cases happ
    exact ⟨FrameOn_refl R h, hno, fun n hib => hib⟩
  | cons hk rest ih =>
    intro h h2 happ htoR hpay hno
    rw [apply_transformer_hooks] at happ
    cases hp : hk.payload with
    | none =>
      simp only [hp] at happ
      exact ih h h2 happ htoR (fun q hq => hpay q (List.mem_cons_of_mem _ hq)) hno
    | some p =>
      simp only [hp] at happ
      cases hmerge : mergeGo fuel h (.dicts toId p) with
      | none => simp [hmerge] at happ
      | some hmid =>
        simp only [hmerge] at happ
        have hpR : p ∉ R := hpay hk (List.mem_cons_self _ _) p hp
        obtain ⟨hfrA, hnoA, hibA⟩ :=
          mergeGo_spec R fuel h (.dicts toId p) hmid hmerge hno ⟨htoR, hpR⟩
        obtain ⟨hfrB, hnoB, hibB⟩ :=
          ih hmid h2 happ htoR (fun q hq => hpay q (List.mem_cons_of_mem _ hq)) hnoA
        exact ⟨FrameOn_trans R hfrA hfrB, hnoB, fun n hib => hibB n (hibA n hib)⟩

/-- The final `to_load_options` merge loop: frame and no-aliasing. -/
theorem merge_to_load_spec (R : List Nat) (fuel : Nat) (toId tlId : Nat) :
    ∀ (wcs : List String) (h : Heap) (fresh : Nat) (h2 : Heap) (fresh2 : Nat),
      merge_to_load_options fuel toId tlId h fresh wcs = some (h2, fresh2) →
      toId ∉ R → tlId ∉ R →
      NoRefInto R h → IdsBelow h fresh → RBelow R fresh →
      FrameOn R h h2 ∧ NoRefInto R h2 ∧ IdsBelow h2 fresh2 ∧ fresh ≤ fresh2 := by
  intro wcs
  induction wcs with
  | nil =>
    intro h fresh h2 fresh2 hm _ _ hno hib _
    cases hm
    exact ⟨FrameOn_refl R h, hno, hib, Nat.le_refl _⟩
  | cons wc rest ih =>
    intro h fresh h2 fresh2 hm htoR htlR hno hib hrb
    rw [merge_to_load_options] at hm
    cases hsd : setdefault_dict h fresh tlId wc with
    | none => simp [hsd] at hm
    | some res =>
      obtain ⟨hA, fA, dId⟩ := res
      simp only [hsd] at hm
      obtain ⟨hfrA, hnoA, hibA, hleA, hrbA, hdIdR⟩ :=
        setdefault_spec R h fresh tlId wc hA fA dId hsd htlR hno hib hrb
      cases hfind : heapFind hA toId with
      | none => simp [hfind] at hm
      | some tod =>
        simp only [hfind] at hm
        cases hget : dictGet tod wc with
        | none => simp [hget] at hm
        | some v =>
          cases v with
          | leaf xs => simp [hget] at hm
          | ref srcId =>
            simp only [hget] at hm
            cases hmerge : mergeGo fuel hA (.dicts dId srcId) with
            | none => simp [hmerge] at hm
            | some hB =>
              simp only [hmerge] at hm
              have hsrcR : srcId ∉ R :=
                hnoA toId htoR tod hfind srcId (dictGet_ref_in_refsOf tod wc srcId hget)
              obtain ⟨hfrB, hnoB, hibB⟩ :=
                mergeGo_spec R fuel hA (.dicts dId srcId) hB hmerge hnoA ⟨hdIdR, hsrcR⟩
              obtain ⟨hfrC, hnoC, hibC, hleC⟩ :=
                ih hB fA h2 fresh2 hm htoR htlR hnoB (hibB fA hibA) hrbA
              exact ⟨FrameOn_trans R (FrameOn_trans R hfrA hfrB) hfrC, hnoC, hibC,
                by omega⟩

/-- Deep reads of protected structures are unaffected by heaps that agree on
`R` (used with `FrameOn` to state "deep-equal before and after"). -/
theorem readGo_frame (R : List Nat) (h h2 : Heap) (hframe : FrameOn R h h2)
    (hclosed : RClosed R h) (fuel : Nat) :
    ∀ j : CJob,
      (match j with
       | .val (.leaf _) => True
       | .val (.ref i) => i ∈ R
       | .entries es => ∀ q ∈ refsOf es, q ∈ R) →
      readGo fuel h2 j = readGo fuel h j := by
  induction fuel with
  | zero => intro j _; rfl
  | succ n ih =>
    intro j hj
    match j with
    | .val (.leaf xs) => rfl
    | .val (.ref i) =>
      have hi : i ∈ R := hj
      rw [readGo, readGo, hframe i hi]
      cases hfind : heapFind h i with
      | none => rfl
      | some d =>
        have hd : ∀ q ∈ refsOf d, q ∈ R := hclosed i hi d hfind
        simp only [hfind]
        rw [ih (.entries d) hd]
    | .entries [] => rfl
    | .entries ((k, v) :: rest) =>
      rw [readGo, readGo]
      have hv : (match CJob.val v with
          | .val (.leaf _) => True
          | .val (.ref i) => i ∈ R
          | .entries es => ∀ q ∈ refsOf es, q ∈ R) := by
        cases v with
        | leaf xs => trivial
        | ref q =>
          refine hj q ?_
          rw [refsOf_cons]
          exact List.mem_append_left _ (List.mem_singleton.mpr rfl)
      have hrest : ∀ q ∈ refsOf rest, q ∈ R := by
        intro q hq
        refine hj q ?_
        rw [refsOf_cons]
        exact List.mem_append_right _ hq
      rw [ih (.val v) hv, ih (.entries rest) hrest]

/-- Recording the registered-hook ids on the options dict: frame and
no-aliasing (the stored value is a leaf, never a reference). -/
theorem register_hooks_step_spec (R : List Nat) (h : Heap) (optsId : Nat)
    (registered : List Hook) (h2 : Heap)
    (hs : register_hooks_step h optsId registered = some h2)
    (hopts : optsId ∉ R) (hno : NoRefInto R h) :
    FrameOn R h h2 ∧ NoRefInto R h2 ∧ ∀ n, IdsBelow h n → IdsBelow h2 n := by
  rw [register_hooks_step] at hs
  by_cases hemp : registered.isEmpty = true
  · rw [if_pos hemp] at hs
    cases hs
    exact ⟨FrameOn_refl R h, hno, fun n hib => hib⟩
  · rw [if_neg hemp] at hs
    exact setDictKey_spec R h optsId "registered_hooks" _ h2 hs hopts
      (fun j hj => by cases hj) hno

/-- Claim C9: `prepare_model_patcher` deep-copies the primary resource's
wrapper and callback registrations before any merge, so after the call the
resource's own structures are deep-equal to their values before the call,
whatever hooks the conditioning set contributes.  `R` is the protected
region (the dict ids reachable from the originals); the hypotheses state
that `R` is reference-closed, that nothing outside `R` references into it,
and that the options dict and the collected hooks' payload dicts lie
outside it — which is how a well-formed Python heap looks, since the
options structure and hook payloads are distinct objects from the model's
own registration dicts. -/
theorem C9_originals_preserved (s : Store) (fuel : Nat) (h : Heap) (fresh : Nat)
    (m : MPRefs) (optsId : Nat) (conds : Conds) (R : List Nat)
    (h2 : Heap) (fresh2 tlId : Nat) (hooks : HookGroup)
    (hrun : prepare_model_patcher s fuel h fresh m optsId conds =
      some (h2, fresh2, tlId, hooks))
    (hw : m.wrappersId ∈ R) (hc : m.callbacksId ∈ R)
    (hclosed : RClosed R h) (hno : NoRefInto R h)
    (hopts : optsId ∉ R) (hib : IdsBelow h fresh) (hrb : RBelow R fresh)
    (hpay : ∀ hk ∈ hooks.hooks, ∀ p, hk.payload = some p → p ∉ R) :
    (∀ F, readGo F h2 (.val (.ref m.wrappersId)) =
      readGo F h (.val (.ref m.wrappersId))) ∧
    (∀ F, readGo F h2 (.val (.ref m.callbacksId)) =
      readGo F h (.val (.ref m.callbacksId))) := by
  rw [prepare_model_patcher] at hrun
  cases hcol : collect_conds_hooks s fuel conds with
  | none => simp [hcol] at hrun
  | some pr =>
    obtain ⟨hks, tr⟩ := pr
    simp only [hcol] at hrun
    cases hod : heapFind h optsId with
    | none => simp [hod] at hrun
    | some od =>
      simp only [hod] at hrun
      cases hto : dictGet od "transformer_options" with
      | none => simp [hto] at hrun
      | some tov =>
        cases tov with
        | leaf xs => simp [hto] at hrun
        | ref toId =>
          simp only [hto] at hrun
          have htoR : toId ∉ R :=
            hno optsId hopts od hod toId
              (dictGet_ref_in_refsOf od "transformer_options" toId hto)
          cases hcw : copyGo fuel h fresh (.val (.ref m.wrappersId)) with
          | none => simp [hcw] at hrun
          | some res1 =>
            obtain ⟨hA, fA, out1⟩ := res1
            simp only [hcw] at hrun
            cases out1 with
            | inr es => simp at hrun
            | inl wv =>
              cases hsk1 : setDictKey hA toId "wrappers" wv with
              | none => simp [hsk1] at hrun
              | some hB =>
                simp only [hsk1] at hrun
                cases hcc : copyGo fuel hB fA (.val (.ref m.callbacksId)) with
                | none => simp [hcc] at hrun
                | some res2 =>
                  obtain ⟨hC, fC, out2⟩ := res2
                  simp only [hcc] at hrun
                  cases out2 with
                  | inr es => simp at hrun
                  | inl cv =>
                    cases hsk2 : setDictKey hC toId "callbacks" cv with
                    | none => simp [hsk2] at hrun
                    | some hD =>
                      simp only [hsk2] at hrun
                      cases happ : apply_transformer_hooks fuel toId hD
                          (hks.get_type .TransformerOptions) with
                      | none => simp [happ] at hrun
                      | some hE =>
                        simp only [happ] at hrun
                        cases hregs : register_hooks_step hE optsId hks.hooks with
                        | none => simp [hregs] at hrun
                        | some hF =>
                          simp only [hregs] at hrun
                          cases hsd : setdefault_dict hF fC optsId
                              "to_load_options" with
                          | none => simp [hsd] at hrun
                          | some res3 =>
                            obtain ⟨hG, fG, tlX⟩ := res3
                            simp only [hsd] at hrun
                            cases hml : merge_to_load_options fuel toId tlX hG fG
                                ["wrappers", "callbacks"] with
                            | none => simp [hml] at hrun
                            | some res4 =>
                              obtain ⟨hH, fH⟩ := res4
                              simp only [hml] at hrun
                              simp only [Option.some.injEq, Prod.mk.injEq] at hrun
                              obtain ⟨rfl, rfl, rfl, rfl⟩ := hrun
                              obtain ⟨hfr1, hno1, hib1, hle1, hrb1, hwv⟩ :=
                                copyGo_frame R fuel h fresh _ hA fA (.inl wv)
                                  hcw hib hrb hno
                              obtain ⟨hfr2, hno2, hibk2⟩ :=
                                setDictKey_spec R hA toId "wrappers" wv hB hsk1
                                  htoR (hwv wv rfl) hno1
                              obtain ⟨hfr3, hno3, hib3, hle3, hrb3, hcv⟩ :=
                                copyGo_frame R fuel hB fA _ hC fC (.inl cv)
                                  hcc (hibk2 fA hib1) hrb1 hno2
                              obtain ⟨hfr4, hno4, hibk4⟩ :=
                                setDictKey_spec R hC toId "callbacks" cv hD hsk2
                                  htoR (hcv cv rfl) hno3
                              have hpayT : ∀ hk ∈ hks.get_type .TransformerOptions,
                                  ∀ p, hk.payload = some p → p ∉ R := by
                                intro hk hkm p hp
                                exact hpay hk (List.mem_filter.mp hkm).1 p hp
                              obtain ⟨hfr5, hno5, hibk5⟩ :=
                                apply_transformer_hooks_spec R fuel toId
                                  (hks.get_type .TransformerOptions) hD hE happ
                                  htoR hpayT hno4
                              obtain ⟨hfr6, hno6, hibk6⟩ :=
                                register_hooks_step_spec R hE optsId hks.hooks hF
                                  hregs hopts hno5
                              have hib6 : IdsBelow hF fC :=
                                hibk6 fC (hibk5 fC (hibk4 fC hib3))
                              obtain ⟨hfr7, hno7, hib7, hle7, hrb7, htlR⟩ :=
                                setdefault_spec R hF fC optsId "to_load_options"
                                  hG fG tlX hsd hopts hno6 hib6 hrb3
                              obtain ⟨hfr8, hno8, hib8, hle8⟩ :=
                                merge_to_load_spec R fuel toId tlX
                                  ["wrappers", "callbacks"] hG fG hH fH hml htoR
                                  htlR hno7 hib7 hrb7
                              have hframe : FrameOn R h hH :=
                                FrameOn_trans R hfr1 (FrameOn_trans R hfr2
                                  (FrameOn_trans R hfr3 (FrameOn_trans R hfr4
                                    (FrameOn_trans R hfr5 (FrameOn_trans R hfr6
                                      (FrameOn_trans R hfr7 hfr8))))))
                              constructor
                              · intro F
                                exact readGo_frame R h hH hframe hclosed F
                                  (.val (.ref m.wrappersId)) hw
                              · intro F
                                exact readGo_frame R h hH hframe hclosed F
                                  (.val (.ref m.callbacksId)) hc

/-- The concrete options heap of the C9 witness: dicts 0/1 are the primary
resource's wrappers/callbacks, dict 2 the options structure, dict 3 its
`transformer_options`, and dicts 4/5 a hook payload (whose `wrappers` entry
would corrupt the originals if the code aliased instead of copying). -/
def c9Heap : Heap :=
  [(0, [("a", .leaf [1, 2])]),
   (1, []),
   (2, [("transformer_options", .ref 3)]),
   (3, []),
   (4, [("x", .leaf [9]), ("wrappers", .ref 5)]),
   (5, [("w", .leaf [7])])]

/-- The transformer-options hook of the C9 witness (payload dict 4). -/
def c9HookP : Hook := ⟨300, .TransformerOptions, [], some 4⟩

/-- The conditioning set of the C9 witness: one entry carrying the hook. -/
def c9Conds : Conds := [("positive", [⟨none, none, none, some ⟨[c9HookP]⟩, 0⟩])]

/-- The heap after `prepare_model_patcher` on the C9 witness inputs: the
working copies (dicts 6/7) absorbed the hook payload's merge, the options
gained `registered_hooks` and `to_load_options`, and dicts 0/1 are
untouched. -/
def c9Final : Heap :=
  [(0, [("a", .leaf [1, 2])]),
   (1, []),
   (2, [("transformer_options", .ref 3), ("registered_hooks", .leaf [300]),
        ("to_load_options", .ref 8)]),
   (3, [("wrappers", .ref 6), ("callbacks", .ref 7), ("x", .leaf [9])]),
   (4, [("x", .leaf [9]), ("wrappers", .ref 5)]),
   (5, [("w", .leaf [7])]),
   (6, [("a", .leaf [1, 2]), ("w", .leaf [7])]),
   (7, []),
   (8, [("wrappers", .ref 9), ("callbacks", .ref 10)]),
   (9, [("a", .leaf [1, 2]), ("w", .leaf [7])]),
   (10, [])]

/-- Claim C9 witness: on the concrete heap the deep values of the primary
resource's wrappers (dict 0) and callbacks (dict 1) are unchanged by
`prepare_model_patcher`, via `C9_originals_preserved`. -/
theorem C9_witness :
    readGo 30 c9Final (.val (.ref 0)) = readGo 30 c9Heap (.val (.ref 0)) ∧
    readGo 30 c9Final (.val (.ref 1)) = readGo 30 c9Heap (.val (.ref 1)) := by
  have hclosed : RClosed [0, 1] c9Heap := by
    intro i hi d hd q hq
    rcases List.mem_cons.mp hi with rfl | hi
    · rw [show heapFind c9Heap 0 = some [("a", HVal.leaf [1, 2])] from rfl] at hd
      injection hd with hd
      rw [← hd] at hq
      simp [refsOf] at hq
    · rcases List.mem_cons.mp hi with rfl | hi
      · rw [show heapFind c9Heap 1 = some [] from rfl] at hd
        injection hd with hd
        rw [← hd] at hq
        simp [refsOf] at hq
      · cases hi
  have hno : NoRefInto [0, 1] c9Heap := by
    intro i hiR d hd q hq hqR
    have hmem := heapFind_some_mem c9Heap i d hd
    simp only [c9Heap, List.mem_cons, List.not_mem_nil, or_false,
      Prod.mk.injEq] at hmem
    rcases hmem with ⟨rfl, rfl⟩ | ⟨rfl, rfl⟩ | ⟨rfl, rfl⟩ | ⟨rfl, rfl⟩ |
      ⟨rfl, rfl⟩ | ⟨rfl, rfl⟩
    · exact hiR (by simp)
    · exact hiR (by simp)
    · simp [refsOf] at hq
      rw [hq] at hqR
      simp at hqR
    · simp [refsOf] at hq
    · simp [refsOf] at hq
      rw [hq] at hqR
      simp at hqR
    · simp [refsOf] at hq
  have hpay : ∀ hk ∈ (⟨[c9HookP]⟩ : HookGroup).hooks, ∀ p,
      hk.payload = some p → p ∉ ([0, 1] : List Nat) := by
    intro hk hkm p hp hpR
    rw [List.mem_singleton.mp hkm] at hp
    injection hp with hp
    rw [← hp] at hpR
    simp at hpR
  have hib : IdsBelow c9Heap 6 := by
    intro p hp
    simp only [c9Heap, List.mem_cons, List.not_mem_nil, or_false] at hp
    rcases hp with rfl | rfl | rfl | rfl | rfl | rfl <;> decide
  have hrb : RBelow [0, 1] 6 := by
    intro i hi
    rcases List.mem_cons.mp hi with rfl | hi
    · omega
    · rcases List.mem_cons.mp hi with rfl | hi
      · omega
      · cases hi
  have h := C9_originals_preserved [] 20 c9Heap 6 ⟨0, 1⟩ 2 c9Conds [0, 1]
    c9Final 11 8 ⟨[c9HookP]⟩ (by decide) (by decide) (by decide)
    hclosed hno (by decide) hib hrb hpay
  exact ⟨h.1 30, h.2 30⟩

end SamplerHelpers
